import Mathlib

/-!
Verification of the transaction-ingestion core of `src/ini.py`
(personal finance ledger).

Modelling conventions:
* Python `str` values are embedded as `List Char` (Unicode scalar values);
  Python whitespace / digit / case predicates are modelled on their ASCII
  fragment, which is the fragment the program's own data ever exercises.
* Python `float` arithmetic inside `parse_amount_to_cents` and
  `cents_to_brl` is modelled by exact rational / integer arithmetic
  (exact for every value the program derives from decimal literals with
  at most 15 significant digits).  Python's `round` (half-to-even on
  binary floats) is modelled by Mathlib's `round` on `ℚ`; the two agree
  away from exact half-cent ties, and the source never documents a
  tie-break.  The exact-integer `cents_to_brl` diverges from the
  program's double-precision division once the amount exceeds roughly
  `2 ^ 46` cents; `cents_to_brl_float` models the binary64 computation
  faithfully (nearest-even rounding of `cents / 100.0`, correctly
  rounded `.2f` formatting) and witnesses that divergence.
* The SQLite table `transactions` is modelled as a list of rows plus the
  next AUTOINCREMENT identifier; the `CHECK (amount_cents > 0)` column
  constraint is modelled inside the insert.  `datetime.utcnow()` is an
  external clock, passed to the writer as an explicit argument.
* The advisory `print` calls inside the vocabulary validators are output
  side effects that do not influence any returned value; the validators
  are modelled by their return values.
-/

namespace Ini

/-! ### Characters and Python string primitives -/

/-- ASCII whitespace as stripped by Python's `str.strip()` (restricted to
the ASCII range: space, tab, newline, carriage return, vertical tab,
form feed). -/
def isPySpace (c : Char) : Bool :=
  c = ' ' || c = '\t' || c = '\n' || c = '\x0d' || c = '\x0b' || c = '\x0c'

/-- `str.lower()` on a string, modelled on the ASCII fragment
(`Char.toLower` maps exactly the letters `A`-`Z`). -/
def pyLower (s : List Char) : List Char := s.map Char.toLower

/-- `str.strip()`: drop leading and trailing whitespace. -/
def pyStrip (s : List Char) : List Char :=
  (((s.dropWhile isPySpace).reverse).dropWhile isPySpace).reverse

/-- `str.replace("R$", "")`: remove every (left-to-right, non-overlapping)
occurrence of the two-character marker `R$`. -/
def removeRS : List Char → List Char
  | 'R' :: '$' :: rest => removeRS rest
  | c :: rest => c :: removeRS rest
  | [] => []

/-- `str.replace(" ", "")`: remove every space character. -/
def removeSpaces (s : List Char) : List Char := s.filter (fun c => c ≠ ' ')

/-- Numeric value of an ASCII digit character. -/
def digitVal (c : Char) : ℕ := c.toNat - 48

/-- Value of a string of ASCII digits, most significant first. -/
def digitsVal (s : List Char) : ℕ := s.foldl (fun a c => a * 10 + digitVal c) 0

/-- Parse a non-empty all-digit string to its numeric value. -/
def parseNatDigits (s : List Char) : Option ℕ :=
  if s ≠ [] ∧ s.all Char.isDigit then some (digitsVal s) else none

/-! ### The Python float literal grammar (decimal fragment)

`float(s)` in `parse_amount_to_cents` is modelled on the decimal fragment
of Python's float grammar: optional sign, digits with at most one point
(at least one digit overall), optional exponent.  The `inf`/`nan` words
and digit-group underscores accepted by CPython are outside the decimal
fragment and are not modelled; no claim depends on them. -/

/-- Strip an optional leading sign, returning whether it was `-`. -/
def splitSign : List Char → Bool × List Char
  | '-' :: r => (true, r)
  | '+' :: r => (false, r)
  | s => (false, s)

/-- Split at the first occurrence of `.`, if any. -/
def splitPoint : List Char → Option (List Char × List Char)
  | [] => none
  | a :: r =>
    if a = '.' then some ([], r)
    else (splitPoint r).map (fun p => (a :: p.1, p.2))

/-- Split at the first `e`/`E`, returning mantissa and optional exponent
part. -/
def splitExpMark : List Char → List Char × Option (List Char)
  | [] => ([], none)
  | a :: r =>
    if a = 'e' ∨ a = 'E' then ([], some r)
    else
      let p := splitExpMark r
      (a :: p.1, p.2)

/-- Parse an unsigned mantissa `digits [. digits]` (at least one digit) to
its exact decimal value, represented as a numerator `n` and a scale `k`
with value `n / 10 ^ k`. -/
def parseMantissa (s : List Char) : Option (ℕ × ℕ) :=
  match splitPoint s with
  | none => (parseNatDigits s).map (fun n => (n, 0))
  | some (a, b) =>
    if a = [] ∧ b = [] then none
    else if a.all Char.isDigit ∧ b.all Char.isDigit then
      some (digitsVal a * 10 ^ b.length + digitsVal b, b.length)
    else none

/-- Parse a signed exponent. -/
def parseExpPart (s : List Char) : Option ℤ :=
  let (neg, d) := splitSign s
  (parseNatDigits d).map (fun n => if neg then -(n : ℤ) else (n : ℤ))

/-- `float(s)` on the decimal fragment.  The exact value of the literal
is returned as a pair `(n, K)` representing `n / 10 ^ K` (`K` may be
negative through the exponent part). -/
def pyFloat (s : List Char) : Option (ℤ × ℤ) :=
  let (neg, rest) := splitSign s
  let (m, e) := splitExpMark rest
  match parseMantissa m, e with
  | some (n, k), none => some (if neg then -(n : ℤ) else (n : ℤ), (k : ℤ))
  | some (n, k), some ep =>
    (parseExpPart ep).map
      (fun ex => (if neg then -(n : ℤ) else (n : ℤ), (k : ℤ) - ex))
  | none, _ => none

/-- The exact rational value denoted by a `pyFloat` result. -/
def decValue (p : ℤ × ℤ) : ℚ := (p.1 : ℚ) / (10 : ℚ) ^ p.2

/-! ### Error taxonomy (spec section 7) -/

inductive Err where
  | InvalidDate
  | InvalidAmount
  | NonPositiveAmount
  | DuplicateTransaction
  | StorageError
deriving DecidableEq

deriving instance DecidableEq for Except

/-! ### Money Parser: `parse_amount_to_cents` (src/ini.py lines 79-102) -/

/-- The preprocessing of line 88: `value_str.strip().replace("R$", "").replace(" ", "")`. -/
def stripAmount (value_str : List Char) : List Char :=
  removeSpaces (removeRS (pyStrip value_str))

/-- The separator disambiguation of lines 89-94. -/
def disambiguate (s : List Char) : List Char :=
  if s.contains '.' ∧ s.contains ',' then
    (s.filter (fun c => c ≠ '.')).map (fun c => if c = ',' then '.' else c)
  else if s.contains ',' then
    s.map (fun c => if c = ',' then '.' else c)
  else s

/-- `round(valor * 100)` computed exactly on the representation
`valor = n / 10 ^ K`: when `K ≤ 2` the product is the integer
`n * 10 ^ (2 - K)`; otherwise it is `n / 10 ^ (K - 2)` rounded to the
nearest integer, computed as `⌊(2 * n + d) / (2 * d)⌋` for
`d = 10 ^ (K - 2)`.  (`round` on `ℚ` is `⌊x + 1/2⌋`; the lemma
`centsRound_eq_round` certifies the identification.) -/
def centsRound (n K : ℤ) : ℤ :=
  if K ≤ 2 then n * 10 ^ (2 - K).toNat
  else (2 * n + 10 ^ (K - 2).toNat) / (2 * 10 ^ (K - 2).toNat)

/-- `parse_amount_to_cents` (lines 79-102): preprocess, disambiguate,
parse as a decimal number, reject non-positive values, convert to cents
by rounding `100 * value`.  A value `n / 10 ^ K` is `≤ 0` exactly when
`n ≤ 0`. -/
def parse_amount_to_cents (value_str : List Char) : Except Err ℤ :=
  match pyFloat (disambiguate (stripAmount value_str)) with
  | none => .error .InvalidAmount
  | some (n, K) =>
    if n ≤ 0 then .error .NonPositiveAmount
    else .ok (centsRound n K)

/-! ### Date Normalizer: `normalize_date_to_iso` (src/ini.py lines 67-77)

`datetime.strptime` compiles `%Y` to exactly four digits and `%m`/`%d`
to one or two digits (regex `1[0-2]|0[1-9]|[1-9]` resp.
`3[01]|[12]\d|0[1-9]|[1-9]`), requiring the whole string to match; a
successful regex match is then checked by the `datetime` constructor
(real calendar date, year at least 1).  Failure of either step raises
`ValueError`, caught by the loop, which then tries the next format. -/

/-- A four ASCII digit year field (`%Y`). -/
def yearField (s : List Char) : Bool :=
  s.length = 4 && s.all Char.isDigit

/-- A month field (`%m`): one or two digits with value 1..12. -/
def monthField (s : List Char) : Bool :=
  s ≠ [] && s.length ≤ 2 && s.all Char.isDigit &&
    1 ≤ digitsVal s && digitsVal s ≤ 12

/-- A day-of-month field (`%d`): one or two digits with value 1..31. -/
def dayField (s : List Char) : Bool :=
  s ≠ [] && s.length ≤ 2 && s.all Char.isDigit &&
    1 ≤ digitsVal s && digitsVal s ≤ 31

/-- Gregorian leap year, as `datetime` implements it. -/
def isLeap (y : ℕ) : Bool := (y % 4 = 0 && y % 100 ≠ 0) || y % 400 = 0

/-- Days in a month of a given year. -/
def daysInMonth (y m : ℕ) : ℕ :=
  if m = 2 then (if isLeap y then 29 else 28)
  else if m = 4 ∨ m = 6 ∨ m = 9 ∨ m = 11 then 30
  else 31

/-- The `datetime(y, m, d)` constructor check: `MINYEAR = 1`,
month and day denote a real calendar date. -/
def dateValid (y m d : ℕ) : Bool :=
  1 ≤ y && y ≤ 9999 && 1 ≤ m && m ≤ 12 && 1 ≤ d && d ≤ daysInMonth y m

/-- Match `"%Y-%m-%d"` against the whole string. -/
def parseYmd (t : List Char) : Option (ℕ × ℕ × ℕ) :=
  match t.splitOn '-' with
  | [ys, ms, ds] =>
    if yearField ys && monthField ms && dayField ds then
      some (digitsVal ys, digitsVal ms, digitsVal ds)
    else none
  | _ => none

/-- Match `"%d/%m/%Y"` against the whole string. -/
def parseDmy (t : List Char) : Option (ℕ × ℕ × ℕ) :=
  match t.splitOn '/' with
  | [ds, ms, ys] =>
    if yearField ys && monthField ms && dayField ds then
      some (digitsVal ys, digitsVal ms, digitsVal ds)
    else none
  | _ => none

/-- Fuel-driven digit expansion; `fuel > n` suffices. -/
def natDigitsAux : ℕ → ℕ → List Char
  | 0, _ => []
  | fuel + 1, n =>
    if n < 10 then [Char.ofNat (48 + n)]
    else natDigitsAux fuel (n / 10) ++ [Char.ofNat (48 + n % 10)]

/-- Decimal digits of a natural number, most significant first
(`f"{n}"`). -/
def natDigits (n : ℕ) : List Char := natDigitsAux (n + 1) n

/-- Zero-pad to two digits (`%02d`, and the fraction field of
`f"{v:.2f}"`). -/
def pad2 (n : ℕ) : List Char :=
  if n < 10 then ['0', Char.ofNat (48 + n)] else natDigits n

/-- Zero-pad to four digits (the year of `date.isoformat()`). -/
def pad4 (n : ℕ) : List Char :=
  List.replicate (4 - (natDigits n).length) '0' ++ natDigits n

/-- `date(y, m, d).isoformat()`: canonical `YYYY-MM-DD`. -/
def isoOfDate (y m d : ℕ) : List Char :=
  pad4 y ++ ['-'] ++ pad2 m ++ ['-'] ++ pad2 d

/-- One `strptime` attempt: regex match then constructor check. -/
def tryFormat (p : List Char → Option (ℕ × ℕ × ℕ)) (t : List Char) :
    Option (List Char) :=
  match p t with
  | some (y, m, d) => if dateValid y m d then some (isoOfDate y m d) else none
  | none => none

/-- `normalize_date_to_iso` (lines 67-77): strip, try `"%Y-%m-%d"` then
`"%d/%m/%Y"`, first success wins, else `InvalidDate`. -/
def normalize_date_to_iso (date_str : List Char) : Except Err (List Char) :=
  let t := pyStrip date_str
  match tryFormat parseYmd t with
  | some r => .ok r
  | none =>
    match tryFormat parseDmy t with
    | some r => .ok r
    | none => .error .InvalidDate

/-! ### Vocabulary Validator (src/ini.py lines 12-20, 104-118)

The advisory `print` in each validator depends only on the returned
value and the fixed lists; it never changes the result. -/

def EXPENSE_CATEGORIES : List (List Char) :=
  ["Alimentação".toList, "Moradia".toList, "Transporte".toList,
   "Saúde".toList, "Educação".toList, "Lazer".toList, "Vestuário".toList,
   "Impostos".toList, "Assinaturas".toList, "Pets".toList,
   "Doações".toList, "Outros".toList]

def INCOME_CATEGORIES : List (List Char) :=
  ["Salário".toList, "Vendas".toList, "Investimentos".toList,
   "Presente".toList, "Reembolso".toList, "Outros".toList]

def PAYMENT_METHODS : List (List Char) :=
  ["pix".toList, "débito".toList, "crédito".toList, "dinheiro".toList,
   "boleto".toList, "transferência".toList]

inductive Kind where
  | expense
  | income
deriving DecidableEq

/-- The recommended list for a kind (line 105). -/
def allowedFor (kind : Kind) : List (List Char) :=
  match kind with
  | .income => INCOME_CATEGORIES
  | .expense => EXPENSE_CATEGORIES

/-- `validate_category` (lines 104-111): `category.strip() or "Outros"`;
the membership test only controls the advisory print. -/
def validate_category (_kind : Kind) (category : List Char) : List Char :=
  let cat := pyStrip category
  if cat = [] then "Outros".toList else cat

/-- Whether `validate_category` prints its advisory (lines 108-110). -/
def categoryAdvisory (kind : Kind) (category : List Char) : Bool :=
  !(allowedFor kind).contains (validate_category kind category)

/-- `validate_payment_method` (lines 113-118):
`m = method.strip().lower(); return m or "pix"`. -/
def validate_payment_method (method : List Char) : List Char :=
  let m := pyLower (pyStrip method)
  if m = [] then "pix".toList else m

/-- Whether `validate_payment_method` prints its advisory
(lines 115-117). -/
def methodAdvisory (method : List Char) : Bool :=
  let m := pyLower (pyStrip method)
  !(m = []) && !PAYMENT_METHODS.contains m

/-! ### Transaction model and store (src/ini.py lines 24-33, 42-63) -/

structure Transaction where
  kind : Kind
  date_iso : List Char
  amount_cents : ℤ
  category : List Char
  description : List Char := []
  account : List Char := "principal".toList
  payment_method : List Char := "pix".toList
  tags : Option (List Char) := none
deriving DecidableEq

/-- One row of the `transactions` table.  `description` and `tags` are
nullable columns. -/
structure Row where
  id : ℕ
  kind : Kind
  date : List Char
  amount_cents : ℤ
  category : List Char
  description : Option (List Char)
  account : List Char
  payment_method : List Char
  tags : Option (List Char)
  created_at : List Char
  updated_at : List Char
deriving DecidableEq

/-- The store: the `transactions` table plus the next `AUTOINCREMENT`
identifier. -/
structure DB where
  rows : List Row
  nextId : ℕ
deriving DecidableEq

/-- The duplicate comparison of the `WHERE` clause (line 130): equality
on `(type, date, amount_cents, category, IFNULL(description, ''))`.
`tx.description or ""` (line 132) equals `tx.description` for strings. -/
def dupMatches (tx : Transaction) (r : Row) : Bool :=
  r.kind = tx.kind && r.date = tx.date_iso &&
    r.amount_cents = tx.amount_cents && r.category = tx.category &&
    r.description.getD [] = tx.description

/-- `is_duplicate` (lines 122-134): `COUNT(1)` of matching rows `> 0`. -/
def is_duplicate (tx : Transaction) (db : DB) : Bool :=
  0 < db.rows.countP (dupMatches tx)

/-- `datetime.utcnow().isoformat(timespec="seconds") + "Z"` (line 139):
the clock value is external; the code appends the `Z` suffix. -/
def utcNowString (t : List Char) : List Char := t ++ ['Z']

/-- The row inserted by the `INSERT` of lines 141-151, with both audit
columns set to `now`. -/
def rowOfTx (tx : Transaction) (id : ℕ) (now : List Char) : Row :=
  { id := id, kind := tx.kind, date := tx.date_iso,
    amount_cents := tx.amount_cents, category := tx.category,
    description := some tx.description, account := tx.account,
    payment_method := tx.payment_method, tags := tx.tags,
    created_at := now, updated_at := now }

/-- `save_transaction` (lines 136-152).  The table's
`CHECK (amount_cents > 0)` makes the insert itself fail with a storage
error on a non-positive amount.  The pair returned is (result, store
after the call); every error leaves the store as it was. -/
def save_transaction (tx : Transaction) (allow_duplicate : Bool)
    (t : List Char) (db : DB) : Except Err ℕ × DB :=
  if !allow_duplicate && is_duplicate tx db then
    (.error .DuplicateTransaction, db)
  else if tx.amount_cents ≤ 0 then (.error .StorageError, db)
  else
    (.ok db.nextId,
      { rows := db.rows ++ [rowOfTx tx db.nextId (utcNowString t)],
        nextId := db.nextId + 1 })

/-- The transaction a facade call assembles (lines 170-179 / 196-205). -/
def mkTx (kind : Kind) (date_iso : List Char) (cents : ℤ)
    (category description account payment_method : List Char)
    (tags : Option (List Char)) : Transaction :=
  { kind := kind, date_iso := date_iso, amount_cents := cents,
    category := validate_category kind category,
    description := pyStrip description,
    account := if pyStrip account = [] then "principal".toList
               else pyStrip account,
    payment_method := validate_payment_method payment_method,
    tags := tags }

/-- `add_expense` (lines 156-180). -/
def add_expense (date_str amount_str category description account
    payment_method : List Char) (tags : Option (List Char))
    (allow_duplicate : Bool) (t : List Char) (db : DB) :
    Except Err ℕ × DB :=
  match normalize_date_to_iso date_str with
  | .error e => (.error e, db)
  | .ok date_iso =>
    match parse_amount_to_cents amount_str with
    | .error e => (.error e, db)
    | .ok cents =>
      save_transaction
        (mkTx .expense date_iso cents category description account
          payment_method tags)
        allow_duplicate t db

/-- `add_income` (lines 182-206). -/
def add_income (date_str amount_str category description account
    payment_method : List Char) (tags : Option (List Char))
    (allow_duplicate : Bool) (t : List Char) (db : DB) :
    Except Err ℕ × DB :=
  match normalize_date_to_iso date_str with
  | .error e => (.error e, db)
  | .ok date_iso =>
    match parse_amount_to_cents amount_str with
    | .error e => (.error e, db)
    | .ok cents =>
      save_transaction
        (mkTx .income date_iso cents category description account
          payment_method tags)
        allow_duplicate t db

/-! ### Display formatter: `cents_to_brl` (src/ini.py lines 210-216)

`valor = cents / 100.0` followed by `f"{valor:.2f}".split(".")` yields
the decimal digits of `cents / 100` and the two-digit fraction
`cents % 100`; this is modelled exactly on integers.  The first
assignment to `inteiro_com_pontos` on line 214 is immediately
overwritten by line 215 and is dead code; line 215 groups the integer
digits in threes from the right, joined with `.`, with `or "0"` for the
empty string. -/

/-- Chunks of three, taken from the front. -/
def rchunks3 : List Char → List (List Char)
  | [] => []
  | [a] => [[a]]
  | [a, b] => [[a, b]]
  | a :: b :: c :: rest => [a, b, c] :: rchunks3 rest

/-- Thousands grouping of line 215: slices of three from the right,
left-to-right, joined with `.`. -/
def groupThousands (ds : List Char) : List Char :=
  List.intercalate ['.'] (((rchunks3 ds.reverse).map List.reverse).reverse)

/-- `cents_to_brl` (lines 210-216) on a non-negative amount, with the
division `cents / 100.0` and the `.2f` formatting replaced by exact
integer arithmetic.  This coincides with the program as long as the
double-precision value of `cents / 100.0` still rounds back to the same
hundredths (amounts below about `2 ^ 46` cents); `cents_to_brl_float`
below models the floating-point computation itself. -/
def cents_to_brl (cents : ℕ) : List Char :=
  let g := groupThousands (natDigits (cents / 100))
  "R$ ".toList ++ (if g = [] then ['0'] else g) ++ [','] ++ pad2 (cents % 100)

/-- Round `a / b` (with `b > 0`) to the nearest integer, ties to even:
the rounding IEEE-754 uses for arithmetic and CPython's `dtoa` uses for
`.2f` formatting. -/
def rheNat (a b : ℕ) : ℕ :=
  let q := a / b
  let r := a % b
  if 2 * r < b then q
  else if b < 2 * r then q + 1
  else if q % 2 = 0 then q else q + 1

/-- Fuel-driven `⌊log₂⌋`; `fuel ≥ ⌊log₂ n⌋ + 1` suffices. -/
def log2Fuel : ℕ → ℕ → ℕ
  | 0, _ => 0
  | f + 1, n => if n < 2 then 0 else log2Fuel f (n / 2) + 1

/-- `⌊log₂ n⌋` (with `floorLog2 0 = 0`). -/
def floorLog2 (n : ℕ) : ℕ := log2Fuel n n

/-- The IEEE-754 binary64 value nearest to `cents / 100` — the `valor`
of line 211 — as a pair (significand, binary exponent) with value
`m * 2 ^ E`: the binade exponent `e = ⌊log₂ (c/100)⌋` is read off an
integer floor division scaled by `2 ^ 64`, and the 53-bit significand
is obtained by rounding `c / 100 * 2 ^ (52 - e)` to the nearest
integer, ties to even.  Overflow and subnormals are not modelled: every
representable amount is many binades away from both. -/
def doubleOfCentsOver100 (c : ℕ) : ℕ × ℤ :=
  let e : ℤ := (floorLog2 (c * 2 ^ 64 / 100) : ℤ) - 64
  let s : ℤ := 52 - e
  let m : ℕ := if 0 ≤ s then rheNat (c * 2 ^ s.toNat) 100
               else rheNat c (100 * 2 ^ (-s).toNat)
  (m, e - 52)

/-- `f"{v:.2f}"` of the double `m * 2 ^ E`, as integer hundredths:
CPython formats the exact binary value, correctly rounded to two
decimals with ties to even (David Gay's dtoa). -/
def formatHundredths (p : ℕ × ℤ) : ℕ :=
  if 0 ≤ p.2 then p.1 * 2 ^ p.2.toNat * 100
  else rheNat (p.1 * 100) (2 ^ (-p.2).toNat)

/-- `cents_to_brl` with the program's `cents / 100.0` double division
modelled faithfully: the digits printed are those of the hundredths of
the nearest binary64 value. -/
def cents_to_brl_float (c : ℕ) : List Char :=
  cents_to_brl (formatHundredths (doubleOfCentsOver100 c))

/-! ### Listing: `list_last` (src/ini.py lines 218-231) -/

/-- The tuple selected by `list_last`'s query (line 221):
`id, type, date, amount_cents, category, IFNULL(description,''),
account, payment_method`. -/
structure ListedTx where
  id : ℕ
  kind : Kind
  date : List Char
  amount_cents : ℤ
  category : List Char
  description : List Char
  account : List Char
  payment_method : List Char
deriving DecidableEq

def listedOfRow (r : Row) : ListedTx :=
  { id := r.id, kind := r.kind, date := r.date,
    amount_cents := r.amount_cents, category := r.category,
    description := r.description.getD [], account := r.account,
    payment_method := r.payment_method }

/-- Strict lexicographic comparison of strings by code point, the order
SQLite's default `BINARY` collation gives on UTF-8 text. -/
def listLtB : List Char → List Char → Bool
  | [], [] => false
  | [], _ :: _ => true
  | _ :: _, [] => false
  | a :: as, b :: bs => if a < b then true else if a = b then listLtB as bs else false

/-- `r` sorts no later than `s` under `ORDER BY date DESC, id DESC`. -/
def rowLeB (r s : Row) : Bool :=
  listLtB s.date r.date || (s.date = r.date && s.id ≤ r.id)

def rowRel (r s : Row) : Prop := rowLeB r s = true

instance : DecidableRel rowRel := fun r s => by
  unfold rowRel
  infer_instance

/-- `list_last` (lines 218-231): order by date descending then id
descending, keep the first `n`, project the selected columns.  (The
`print` loop formats these tuples; the query result is the model.) -/
def list_last (n : ℕ) (db : DB) : List ListedTx :=
  (((db.rows.insertionSort rowRel).take n).map listedOfRow)

/-! ## Supporting lemmas -/

/-! ### Characters -/

theorem toNat_ofNat_valid (n : ℕ) (h : n.isValidChar) :
    (Char.ofNat n).toNat = n := by
  rw [Char.ofNat, dif_pos h]
  rfl

theorem char_toNat_inj {c d : Char} (h : c.toNat = d.toNat) : c = d :=
  Char.ext (UInt32.ext h)

theorem char_eq_iff_toNat (c d : Char) : c = d ↔ c.toNat = d.toNat :=
  ⟨fun h => h ▸ rfl, char_toNat_inj⟩

theorem toLower_of_upper {c : Char} (h : 65 ≤ c.toNat ∧ c.toNat ≤ 90) :
    (Char.toLower c).toNat = c.toNat + 32 := by
  unfold Char.toLower
  rw [if_pos h]
  exact toNat_ofNat_valid _ (Or.inl (by omega))

theorem toLower_of_not_upper {c : Char} (h : ¬(65 ≤ c.toNat ∧ c.toNat ≤ 90)) :
    Char.toLower c = c := by
  unfold Char.toLower
  rw [if_neg h]

theorem toLower_idem (c : Char) : c.toLower.toLower = c.toLower := by
  by_cases h : 65 ≤ c.toNat ∧ c.toNat ≤ 90
  · have h2 := toLower_of_upper h
    apply toLower_of_not_upper
    omega
  · rw [toLower_of_not_upper h, toLower_of_not_upper h]

theorem isPySpace_iff (c : Char) :
    isPySpace c = true ↔
      (c.toNat = 32 ∨ c.toNat = 9 ∨ c.toNat = 10 ∨ c.toNat = 13 ∨
        c.toNat = 11 ∨ c.toNat = 12) := by
  simp only [isPySpace, Bool.or_eq_true, decide_eq_true_eq, char_eq_iff_toNat,
    show (' '.toNat) = 32 from rfl, show ('\t'.toNat) = 9 from rfl,
    show ('\n'.toNat) = 10 from rfl, show ('\x0d'.toNat) = 13 from rfl,
    show ('\x0b'.toNat) = 11 from rfl, show ('\x0c'.toNat) = 12 from rfl]
  omega

theorem isPySpace_toLower (c : Char) : isPySpace c.toLower = isPySpace c := by
  by_cases h : 65 ≤ c.toNat ∧ c.toNat ≤ 90
  · have h2 := toLower_of_upper h
    have hl : isPySpace c.toLower = false := by
      rw [← Bool.not_eq_true, isPySpace_iff]
      omega
    have hc : isPySpace c = false := by
      rw [← Bool.not_eq_true, isPySpace_iff]
      omega
    rw [hl, hc]
  · rw [toLower_of_not_upper h]

/-! ### `dropWhile` and strip -/

theorem head?_dropWhile_not (p : Char → Bool) (l : List Char) {c : Char}
    (h : (l.dropWhile p).head? = some c) : p c = false := by
  induction l with
  | nil => simp at h
  | cons a t ih =>
    rw [List.dropWhile_cons] at h
    by_cases ha : p a
    · rw [if_pos ha] at h
      exact ih h
    · rw [if_neg ha] at h
      simp only [List.head?_cons, Option.some.injEq] at h
      subst h
      simpa using ha

theorem dropWhile_eq_self_of_head? (p : Char → Bool) (l : List Char)
    (h : ∀ c, l.head? = some c → p c = false) : l.dropWhile p = l := by
  cases l with
  | nil => rfl
  | cons a t =>
    rw [List.dropWhile_cons, if_neg]
    simp [h a rfl]

theorem dropWhile_idem (p : Char → Bool) (l : List Char) :
    (l.dropWhile p).dropWhile p = l.dropWhile p := by
  apply dropWhile_eq_self_of_head?
  intro c hc
  exact head?_dropWhile_not p l hc

/-- The strip result, written back as a decomposition of the left-trim:
`dropWhile ws s = pyStrip s ++ (trailing whitespace)`. -/
theorem dropWhile_eq_pyStrip_append (s : List Char) :
    ∃ t, s.dropWhile isPySpace = pyStrip s ++ t := by
  obtain ⟨u, hu⟩ := List.dropWhile_suffix (l := (s.dropWhile isPySpace).reverse)
    isPySpace
  refine ⟨u.reverse, ?_⟩
  unfold pyStrip
  conv_lhs => rw [← List.reverse_reverse (s.dropWhile isPySpace), ← hu]
  rw [List.reverse_append]

theorem pyStrip_head? (s : List Char) {c : Char}
    (h : (pyStrip s).head? = some c) : isPySpace c = false := by
  obtain ⟨t, ht⟩ := dropWhile_eq_pyStrip_append s
  apply head?_dropWhile_not isPySpace s
  rw [ht, List.head?_append, h]
  rfl

theorem pyStrip_idem (s : List Char) : pyStrip (pyStrip s) = pyStrip s := by
  unfold pyStrip
  have h1 : (((s.dropWhile isPySpace).reverse.dropWhile isPySpace).reverse).dropWhile
      isPySpace = ((s.dropWhile isPySpace).reverse.dropWhile isPySpace).reverse := by
    apply dropWhile_eq_self_of_head?
    intro c hc
    exact pyStrip_head? s hc
  rw [h1, List.reverse_reverse, dropWhile_idem]

theorem pyStrip_map (f : Char → Char) (hf : ∀ c, isPySpace (f c) = isPySpace c)
    (s : List Char) : pyStrip (s.map f) = (pyStrip s).map f := by
  have hcomp : isPySpace ∘ f = isPySpace := funext hf
  unfold pyStrip
  simp only [List.dropWhile_map, hcomp, ← List.map_reverse]

theorem pyLower_pyStrip (s : List Char) :
    pyStrip (pyLower s) = pyLower (pyStrip s) :=
  pyStrip_map Char.toLower isPySpace_toLower s

theorem pyLower_idem (s : List Char) : pyLower (pyLower s) = pyLower s := by
  unfold pyLower
  rw [List.map_map]
  apply List.map_congr_left
  intro c _
  exact toLower_idem c

theorem pyLower_eq_nil {s : List Char} : pyLower s = [] ↔ s = [] := by
  unfold pyLower
  exact List.map_eq_nil_iff

/-! ## Claims about the vocabulary validators -/

/-- Claim C8: for every kind and input string the validators are total
functions; each trims its input, substitutes the default (`"Outros"`
for categories, `"pix"` for payment methods) when the trimmed value is
empty, lower-cases payment methods only — categories are returned
exactly as trimmed, case preserved — and returns every non-empty value,
in or out of the recommended vocabulary, with only that normalization;
in particular `validate_payment_method "PIX" = "pix"` and
`validate_payment_method "" = "pix"`. -/
theorem claim_C8 :
    (∀ k c, (pyStrip c = [] → validate_category k c = "Outros".toList) ∧
      (pyStrip c ≠ [] → validate_category k c = pyStrip c)) ∧
    (∀ m, (pyStrip m = [] → validate_payment_method m = "pix".toList) ∧
      (pyStrip m ≠ [] →
        validate_payment_method m = pyLower (pyStrip m))) ∧
    validate_payment_method "PIX".toList = "pix".toList ∧
    validate_payment_method "".toList = "pix".toList := by
  refine ⟨fun k c => ⟨fun h => ?_, fun h => ?_⟩,
    fun m => ⟨fun h => ?_, fun h => ?_⟩, by decide, by decide⟩
  · simp [validate_category, h]
  · simp [validate_category, h]
  · simp [validate_payment_method, pyLower_eq_nil, h]
  · have h2 : pyLower (pyStrip m) ≠ [] := fun hc => h (pyLower_eq_nil.mp hc)
    simp [validate_payment_method, h2]

/-- Witness for C8 at concrete inputs. -/
theorem claim_C8_witness :
    validate_category Kind.expense " Mercado ".toList = "Mercado".toList ∧
    validate_payment_method " PIX ".toList = "pix".toList := by
  constructor
  · rw [(claim_C8.1 Kind.expense " Mercado ".toList).2 (by decide)]
    decide
  · rw [(claim_C8.2.1 " PIX ".toList).2 (by decide)]
    decide

/-- Claim C10: both validators are idempotent and never return the empty
string. -/
theorem claim_C10 :
    ∀ k c m,
      validate_category k (validate_category k c) = validate_category k c ∧
      validate_category k c ≠ [] ∧
      validate_payment_method (validate_payment_method m) =
        validate_payment_method m ∧
      validate_payment_method m ≠ [] := by
  intro k c m
  refine ⟨?_, ?_, ?_, ?_⟩
  · by_cases h : pyStrip c = []
    · simp only [validate_category, h, if_pos rfl]
      decide
    · simp only [validate_category, if_neg h, pyStrip_idem, if_neg h]
  · by_cases h : pyStrip c = []
    · simp only [validate_category, h, if_pos rfl]
      decide
    · simp only [validate_category, if_neg h]
      exact h
  · by_cases h : pyLower (pyStrip m) = []
    · simp only [validate_payment_method, h, if_pos rfl]
      decide
    · simp only [validate_payment_method, if_neg h, pyLower_pyStrip,
        pyStrip_idem, pyLower_idem, if_neg h]
  · by_cases h : pyLower (pyStrip m) = []
    · simp only [validate_payment_method, h, if_pos rfl]
      decide
    · simp only [validate_payment_method, if_neg h]
      exact h

/-- Witness for C10 at concrete inputs. -/
theorem claim_C10_witness :
    validate_category Kind.income
        (validate_category Kind.income "mercearia".toList) =
      validate_category Kind.income "mercearia".toList ∧
    validate_payment_method (validate_payment_method "Cartão ".toList) =
      validate_payment_method "Cartão ".toList :=
  ⟨(claim_C10 Kind.income "mercearia".toList "Cartão ".toList).1,
    (claim_C10 Kind.income "mercearia".toList "Cartão ".toList).2.2.1⟩

/-! ## Claims about the Duplicate Detector -/

theorem dupMatches_iff (tx : Transaction) (r : Row) :
    dupMatches tx r = true ↔
      (r.kind = tx.kind ∧ r.date = tx.date_iso ∧
        r.amount_cents = tx.amount_cents ∧ r.category = tx.category ∧
        r.description.getD [] = tx.description) := by
  simp [dupMatches, and_assoc]

/-- Claim C6: `is_duplicate` is true exactly when some stored row agrees
with the transaction on the tuple `(kind, date, amount_cents, category,
description)`, a NULL stored description comparing equal to the empty
string; rewriting the `account`, `payment_method` and `tags` columns of
every row never changes the result. -/
theorem claim_C6 :
    ∀ tx db,
      (is_duplicate tx db = true ↔
        ∃ r ∈ db.rows, r.kind = tx.kind ∧ r.date = tx.date_iso ∧
          r.amount_cents = tx.amount_cents ∧ r.category = tx.category ∧
          r.description.getD [] = tx.description) ∧
      (∀ (f g : Row → List Char) (h : Row → Option (List Char)),
        is_duplicate tx
          { rows := db.rows.map (fun r =>
              { r with account := f r, payment_method := g r, tags := h r }),
            nextId := db.nextId } = is_duplicate tx db) := by
  intro tx db
  constructor
  · rw [show is_duplicate tx db = decide (0 < db.rows.countP (dupMatches tx))
      from rfl, decide_eq_true_eq, List.countP_pos_iff]
    constructor
    · intro ⟨r, hr, hm⟩
      exact ⟨r, hr, (dupMatches_iff tx r).mp hm⟩
    · intro ⟨r, hr, hm⟩
      exact ⟨r, hr, (dupMatches_iff tx r).mpr hm⟩
  · intro f g h
    have hcomp : (dupMatches tx) ∘ (fun r : Row =>
        { r with account := f r, payment_method := g r, tags := h r }) =
          dupMatches tx := by
      funext r
      simp [dupMatches]
    simp only [is_duplicate, List.countP_map, hcomp]

/-! Fixture store and transaction for concrete witnesses. -/

def sampleTx : Transaction :=
  { kind := .expense, date_iso := "2024-03-05".toList, amount_cents := 1234,
    category := "Alimentação".toList, description := "almoço".toList,
    account := "principal".toList, payment_method := "pix".toList,
    tags := none }

def sampleRow : Row :=
  { id := 1, kind := .expense, date := "2024-03-05".toList,
    amount_cents := 1234, category := "Alimentação".toList,
    description := some "almoço".toList, account := "corrente".toList,
    payment_method := "débito".toList, tags := some "x".toList,
    created_at := "2024-03-05T10:00:00Z".toList,
    updated_at := "2024-03-05T10:00:00Z".toList }

def sampleDB : DB := { rows := [sampleRow], nextId := 2 }

/-- Witness for C6: the fixture row differs from the fixture transaction
in `account`, `payment_method` and `tags`, yet is a duplicate of it. -/
theorem claim_C6_witness : is_duplicate sampleTx sampleDB = true :=
  (claim_C6 sampleTx sampleDB).1.mpr ⟨sampleRow, by decide, by decide⟩

/-! ## Claims about the Money Parser -/

theorem centsRound_nonneg {n : ℤ} (K : ℤ) (h : 0 < n) :
    0 ≤ centsRound n K := by
  unfold centsRound
  split
  · exact mul_nonneg h.le (pow_nonneg (by norm_num) _)
  · apply Int.ediv_nonneg
    · have h10 : (0:ℤ) ≤ 10 ^ (K - 2).toNat := pow_nonneg (by norm_num) _
      omega
    · positivity

/-- Counterexample to claim C1 as stated: on the input `"0,001"` the
parser succeeds (the parsed value `0.001` is strictly positive, so the
`valor <= 0` guard does not fire) yet `round(0.001 * 100) = round(0.1)`
returns the amount `0`, which is not strictly positive. -/
theorem claim_C1_cex :
    parse_amount_to_cents "0,001".toList = .ok 0 ∧ ¬ (0 : ℤ) > 0 := by
  constructor
  · decide
  · decide

/-- Claim C1 as amended: every successful parse returns a *non-negative*
amount (values strictly between `0` and half a cent round down to `0`),
and the storage boundary refuses to write any transaction whose amount
is not strictly positive (the table's `CHECK (amount_cents > 0)`), so a
zero amount can never be stored. -/
theorem claim_C1_amended :
    (∀ s c, parse_amount_to_cents s = .ok c → 0 ≤ c) ∧
    (∀ tx allow t db, tx.amount_cents ≤ 0 →
      (save_transaction tx allow t db).2 = db ∧
      ∀ i, (save_transaction tx allow t db).1 ≠ .ok i) := by
  constructor
  · intro s c hc
    unfold parse_amount_to_cents at hc
    split at hc
    next => simp at hc
    next n K heq =>
      split at hc
      next => simp at hc
      next hn =>
        simp only [Except.ok.injEq] at hc
        subst hc
        exact centsRound_nonneg K (by omega)
  · intro tx allow t db h
    unfold save_transaction
    by_cases hdup : (!allow && is_duplicate tx db) = true
    · rw [if_pos hdup]
      exact ⟨rfl, by simp⟩
    · rw [if_neg hdup, if_pos h]
      exact ⟨rfl, by simp⟩

/-- Witness for the amended C1 at concrete inputs. -/
theorem claim_C1_witness :
    (0 : ℤ) ≤ 1234 ∧
    (save_transaction { sampleTx with amount_cents := 0 } false
        "2024-03-05T10:00:00".toList sampleDB).2 = sampleDB :=
  ⟨claim_C1_amended.1 "12,34".toList 1234 (by decide),
    (claim_C1_amended.2 { sampleTx with amount_cents := 0 } false
      "2024-03-05T10:00:00".toList sampleDB (by decide)).1⟩

/-- Removal of every `.` (the spec's "remove `.`"). -/
def removeDots (s : List Char) : List Char := s.filter (fun c => c ≠ '.')

/-- Replacement of every `,` by `.` (the spec's "replace `,` with `.`"). -/
def commaToDot (s : List Char) : List Char :=
  s.map (fun c => if c = ',' then '.' else c)

/-- The separator disambiguation as worded by the spec (section 4.1):
both separators present means `.` is grouping and `,` decimal; a lone
`,` is the decimal separator; otherwise the string stands as is. -/
def specDisambiguate (s : List Char) : List Char :=
  if s.contains '.' ∧ s.contains ',' then commaToDot (removeDots s)
  else if s.contains ',' then commaToDot s
  else s

/-- Modelled from the claim's words (claim C2 / spec section 4.1):
strip a *leading* currency marker and *all* whitespace.  This differs
from line 88 of the source, which removes every occurrence of `"R$"`
and only removes the space character. -/
def claimedStrip (s : List Char) : List Char :=
  (match s with
    | 'R' :: '$' :: r => r
    | t => t).filter (fun c => !isPySpace c)

/-- The claim's parsing pipeline with its claimed preprocessing. -/
def claimedParseAmount (value_str : List Char) : Except Err ℤ :=
  match pyFloat (disambiguate (claimedStrip value_str)) with
  | none => .error .InvalidAmount
  | some (n, K) =>
    if n ≤ 0 then .error .NonPositiveAmount
    else .ok (centsRound n K)

/-- Counterexample to claim C2 as stated: the currency marker is removed
*everywhere*, not only in leading position.  On `"1R$2"` the claimed
algorithm leaves `1R$2`, which is unparseable (`InvalidAmount`), but the
code removes the interior marker and parses `12` reais, succeeding with
`1200` cents.  (Likewise the code removes only the space character, not
all whitespace.) -/
theorem claim_C2_cex :
    parse_amount_to_cents "1R$2".toList ≠
      claimedParseAmount "1R$2".toList ∧
    parse_amount_to_cents "1R$2".toList = .ok 1200 ∧
    claimedParseAmount "1R$2".toList = .error .InvalidAmount := by
  refine ⟨by decide, by decide, by decide⟩

/-- Claim C2 as amended: the parser removes every occurrence of the
currency marker `R$` and every space character after trimming
surrounding whitespace; it then disambiguates separators exactly as the
claim describes (both `.` and `,` present: drop every `.`, turn `,`
into `.`; only `,`: `,` is the decimal separator; otherwise the string
is parsed as it stands), fails with `InvalidAmount` when the result is
not a decimal literal, and satisfies the three quoted examples. -/
theorem claim_C2_amended :
    (∀ s, parse_amount_to_cents s =
      match pyFloat (specDisambiguate (stripAmount s)) with
      | none => .error .InvalidAmount
      | some (n, K) =>
        if n ≤ 0 then .error .NonPositiveAmount
        else .ok (centsRound n K)) ∧
    parse_amount_to_cents "1.234,56".toList = .ok 123456 ∧
    parse_amount_to_cents "1234.56".toList = .ok 123456 ∧
    parse_amount_to_cents "1234".toList = .ok 123400 :=
  ⟨fun _ => rfl, by decide, by decide, by decide⟩

/-- Witness for the amended C2 at a concrete input. -/
theorem claim_C2_witness :
    parse_amount_to_cents "R$ 9,90".toList =
      match pyFloat (specDisambiguate (stripAmount "R$ 9,90".toList)) with
      | none => .error .InvalidAmount
      | some (n, K) =>
        if n ≤ 0 then .error .NonPositiveAmount
        else .ok (centsRound n K) :=
  claim_C2_amended.1 "R$ 9,90".toList

/-! ## Claims about the Date Normalizer -/

theorem tryFormat_eq_some (p : List Char → Option (ℕ × ℕ × ℕ))
    (t : List Char) (r : List Char) :
    tryFormat p t = some r ↔
      ∃ y m d, p t = some (y, m, d) ∧ dateValid y m d = true ∧
        r = isoOfDate y m d := by
  unfold tryFormat
  split
  next y m d heq =>
    by_cases hv : dateValid y m d = true
    · rw [if_pos hv]
      constructor
      · intro hr
        refine ⟨y, m, d, heq, hv, ?_⟩
        simpa using hr.symm
      · intro ⟨y2, m2, d2, hp, hv2, hr⟩
        rw [heq] at hp
        simp only [Option.some.injEq, Prod.mk.injEq] at hp
        obtain ⟨h1, h2, h3⟩ := hp
        subst h1; subst h2; subst h3
        rw [hr]
    · rw [if_neg hv]
      constructor
      · intro hr
        exact absurd hr (by simp)
      · intro ⟨y2, m2, d2, hp, hv2, hr⟩
        rw [heq] at hp
        simp only [Option.some.injEq, Prod.mk.injEq] at hp
        obtain ⟨h1, h2, h3⟩ := hp
        subst h1; subst h2; subst h3
        exact absurd hv2 hv
  next heq =>
    constructor
    · intro hr
      exact absurd hr (by simp)
    · intro ⟨y2, m2, d2, hp, hv2, hr⟩
      rw [heq] at hp
      exact absurd hp (by simp)

/-- Counterexample to claim C4 as stated: `strptime`'s `%m` and `%d`
fields accept one- or two-digit values, so `"2024-3-5"` — which is not
of the shape `YYYY-MM-DD` — nevertheless parses and normalizes, where
the claim demands failure with `InvalidDate` on every input other than
the two canonical shapes. -/
theorem claim_C4_cex :
    normalize_date_to_iso "2024-3-5".toList = .ok "2024-03-05".toList := by
  decide

/-- Claim C4 as amended: `normalize_date_to_iso` trims surrounding
whitespace; it succeeds exactly when the trimmed input matches
`%Y-%m-%d` or `%d/%m/%Y` — a four-digit year and one- *or* two-digit
month and day fields — and denotes a real calendar date (year at least
1); every success returns the canonical zero-padded `YYYY-MM-DD` form
of a valid date; the quoted examples hold, and `"31/02/2024"` fails
with `InvalidDate`. -/
theorem claim_C4_amended :
    (∀ s, normalize_date_to_iso s = normalize_date_to_iso (pyStrip s)) ∧
    (∀ s r, normalize_date_to_iso s = .ok r →
      ∃ y m d, dateValid y m d = true ∧ r = isoOfDate y m d) ∧
    (∀ s, (∃ r, normalize_date_to_iso s = .ok r) ↔
      ∃ y m d, dateValid y m d = true ∧
        (parseYmd (pyStrip s) = some (y, m, d) ∨
          parseDmy (pyStrip s) = some (y, m, d))) ∧
    normalize_date_to_iso "2024-03-05".toList = .ok "2024-03-05".toList ∧
    normalize_date_to_iso "05/03/2024".toList = .ok "2024-03-05".toList ∧
    normalize_date_to_iso "31/02/2024".toList = .error .InvalidDate := by
  refine ⟨?_, ?_, ?_, by decide, by decide, by decide⟩
  · intro s
    unfold normalize_date_to_iso
    rw [pyStrip_idem]
  · intro s r hr
    unfold normalize_date_to_iso at hr
    dsimp only at hr
    split at hr
    next r2 heq =>
      obtain ⟨y, m, d, _, hv, hiso⟩ := (tryFormat_eq_some _ _ _).mp heq
      simp only [Except.ok.injEq] at hr
      exact ⟨y, m, d, hv, by rw [← hr, hiso]⟩
    next heq =>
      split at hr
      next r2 heq2 =>
        obtain ⟨y, m, d, _, hv, hiso⟩ := (tryFormat_eq_some _ _ _).mp heq2
        simp only [Except.ok.injEq] at hr
        exact ⟨y, m, d, hv, by rw [← hr, hiso]⟩
      next => simp at hr
  · intro s
    constructor
    · intro ⟨r, hr⟩
      unfold normalize_date_to_iso at hr
      dsimp only at hr
      split at hr
      next r2 heq =>
        obtain ⟨y, m, d, hp, hv, _⟩ := (tryFormat_eq_some _ _ _).mp heq
        exact ⟨y, m, d, hv, Or.inl hp⟩
      next heq =>
        split at hr
        next r2 heq2 =>
          obtain ⟨y, m, d, hp, hv, _⟩ := (tryFormat_eq_some _ _ _).mp heq2
          exact ⟨y, m, d, hv, Or.inr hp⟩
        next => simp at hr
    · intro ⟨y, m, d, hv, hp⟩
      unfold normalize_date_to_iso
      dsimp only
      cases hp with
      | inl hp =>
        have h1 : tryFormat parseYmd (pyStrip s) = some (isoOfDate y m d) :=
          (tryFormat_eq_some _ _ _).mpr ⟨y, m, d, hp, hv, rfl⟩
        rw [h1]
        exact ⟨isoOfDate y m d, rfl⟩
      | inr hp =>
        cases h1 : tryFormat parseYmd (pyStrip s) with
        | some r2 => exact ⟨r2, rfl⟩
        | none =>
          have h2 : tryFormat parseDmy (pyStrip s) = some (isoOfDate y m d) :=
            (tryFormat_eq_some _ _ _).mpr ⟨y, m, d, hp, hv, rfl⟩
          refine ⟨isoOfDate y m d, ?_⟩
          rw [h2]

/-- Witness for the amended C4 at concrete inputs. -/
theorem claim_C4_witness :
    ∃ y m d, dateValid y m d = true ∧
      "2024-03-05".toList = isoOfDate y m d :=
  claim_C4_amended.2.1 "05/03/2024".toList "2024-03-05".toList (by decide)

/-! ## Claims about the Transaction Writer and the facades -/

theorem dupMatches_rowOfTx (tx : Transaction) (id : ℕ) (now : List Char) :
    dupMatches tx (rowOfTx tx id now) = true := by
  simp [dupMatches, rowOfTx]

theorem is_duplicate_append_self (tx : Transaction) (rows : List Row)
    (r : Row) (nid : ℕ) (h : dupMatches tx r = true) :
    is_duplicate tx { rows := rows ++ [r], nextId := nid } = true := by
  simp [is_duplicate, List.countP_append, List.countP_cons, h]

theorem save_of_dup {tx : Transaction} {t : List Char} {db : DB}
    (h : is_duplicate tx db = true) :
    save_transaction tx false t db = (.error .DuplicateTransaction, db) := by
  unfold save_transaction
  rw [if_pos (by simp [h])]

theorem save_of_ok {tx : Transaction} {allow : Bool} {t : List Char}
    {db : DB} (hnd : allow = true ∨ is_duplicate tx db = false)
    (hpos : 0 < tx.amount_cents) :
    save_transaction tx allow t db =
      (.ok db.nextId,
        { rows := db.rows ++ [rowOfTx tx db.nextId (utcNowString t)],
          nextId := db.nextId + 1 }) := by
  unfold save_transaction
  have hcond : (!allow && is_duplicate tx db) = false := by
    cases hnd with
    | inl h => rw [h]; rfl
    | inr h => rw [h]; simp
  rw [hcond, if_neg (by simp), if_neg (by omega)]

theorem save_ok_inv {tx : Transaction} {allow : Bool} {t : List Char}
    {db : DB} {i : ℕ} {db2 : DB}
    (h : save_transaction tx allow t db = (.ok i, db2)) :
    0 < tx.amount_cents ∧ (!allow && is_duplicate tx db) = false ∧
      i = db.nextId ∧
      db2 = { rows := db.rows ++ [rowOfTx tx db.nextId (utcNowString t)],
              nextId := db.nextId + 1 } := by
  unfold save_transaction at h
  split at h
  next hdup => simp at h
  next hdup =>
    split at h
    next => simp at h
    next hpos =>
      simp only [Prod.mk.injEq, Except.ok.injEq] at h
      exact ⟨by omega, by simpa using hdup, h.1.symm, h.2.symm⟩

theorem add_expense_ok_inv {date amount cat desc acc pm : List Char}
    {tags : Option (List Char)} {allow : Bool} {t : List Char} {db : DB}
    {i : ℕ} {db2 : DB}
    (h : add_expense date amount cat desc acc pm tags allow t db =
      (.ok i, db2)) :
    ∃ di c, normalize_date_to_iso date = .ok di ∧
      parse_amount_to_cents amount = .ok c ∧
      save_transaction (mkTx .expense di c cat desc acc pm tags) allow t db =
        (.ok i, db2) := by
  unfold add_expense at h
  split at h
  next => simp at h
  next di hdi =>
    split at h
    next => simp at h
    next c hc => exact ⟨di, c, hdi, hc, h⟩

/-- Claim C3: the writer refuses duplicates when `allow_duplicate` is
false, leaving the store untouched; otherwise it stamps
`created_at = updated_at` with the same second-precision `Z`-suffixed
clock string and performs exactly one insert, returning the
storage-assigned identifier.  Consequently a first successful
`add_expense` makes an identical second call with
`allow_duplicate = false` fail with `DuplicateTransaction` (store
unchanged), while the identical call with `allow_duplicate = true`
succeeds with a different identifier. -/
theorem claim_C3 :
    (∀ tx t db, is_duplicate tx db = true →
      save_transaction tx false t db = (.error .DuplicateTransaction, db)) ∧
    (∀ tx allow t db, (allow = true ∨ is_duplicate tx db = false) →
      0 < tx.amount_cents →
      save_transaction tx allow t db =
        (.ok db.nextId,
          { rows := db.rows ++ [rowOfTx tx db.nextId (utcNowString t)],
            nextId := db.nextId + 1 }) ∧
      (rowOfTx tx db.nextId (utcNowString t)).created_at = utcNowString t ∧
      (rowOfTx tx db.nextId (utcNowString t)).updated_at = utcNowString t) ∧
    (∀ date amount cat desc acc pm tags t1 t2 t3 db i1 db1,
      add_expense date amount cat desc acc pm tags false t1 db =
        (.ok i1, db1) →
      add_expense date amount cat desc acc pm tags false t2 db1 =
        (.error .DuplicateTransaction, db1) ∧
      ∃ i2 db2, add_expense date amount cat desc acc pm tags true t3 db1 =
        (.ok i2, db2) ∧ i2 ≠ i1) := by
  refine ⟨fun tx t db h => save_of_dup h,
    fun tx allow t db hnd hpos => ⟨save_of_ok hnd hpos, rfl, rfl⟩,
    ?_⟩
  intro date amount cat desc acc pm tags t1 t2 t3 db i1 db1 h1
  obtain ⟨di, c, hdi, hc, hsave⟩ := add_expense_ok_inv h1
  obtain ⟨hpos, hcond, hi1, hdb1⟩ := save_ok_inv hsave
  have hdup : is_duplicate (mkTx .expense di c cat desc acc pm tags) db1 =
      true := by
    rw [hdb1]
    exact is_duplicate_append_self _ _ _ _ (dupMatches_rowOfTx _ _ _)
  constructor
  · unfold add_expense
    rw [hdi, hc]
    exact save_of_dup hdup
  · refine ⟨db1.nextId,
      { rows := db1.rows ++ [rowOfTx (mkTx .expense di c cat desc acc pm tags)
          db1.nextId (utcNowString t3)], nextId := db1.nextId + 1 },
      ?_, ?_⟩
    · unfold add_expense
      rw [hdi, hc]
      exact save_of_ok (Or.inl rfl) hpos
    · rw [hdb1, hi1]
      simp

/-- Witness for C3: the fixture duplicate is refused. -/
theorem claim_C3_witness :
    save_transaction sampleTx false "2024-03-05T11:00:00".toList sampleDB =
      (.error .DuplicateTransaction, sampleDB) :=
  claim_C3.1 sampleTx "2024-03-05T11:00:00".toList sampleDB (by decide)

theorem normalize_error_inv {s : List Char} {e : Err}
    (h : normalize_date_to_iso s = .error e) : e = .InvalidDate := by
  unfold normalize_date_to_iso at h
  dsimp only at h
  split at h
  next => simp at h
  next =>
    split at h
    next => simp at h
    next => simpa using h.symm

theorem parse_error_inv {s : List Char} {e : Err}
    (h : parse_amount_to_cents s = .error e) :
    e = .InvalidAmount ∨ e = .NonPositiveAmount := by
  unfold parse_amount_to_cents at h
  split at h
  next => exact Or.inl (by simpa using h.symm)
  next n K heq =>
    split at h
    next => exact Or.inr (by simpa using h.symm)
    next => simp at h

theorem save_cases (tx : Transaction) (allow : Bool) (t : List Char)
    (db : DB) :
    (save_transaction tx allow t db =
      (.ok db.nextId,
        { rows := db.rows ++ [rowOfTx tx db.nextId (utcNowString t)],
          nextId := db.nextId + 1 })) ∨
    (∃ e, save_transaction tx allow t db = (.error e, db)) := by
  unfold save_transaction
  split
  next => exact Or.inr ⟨.DuplicateTransaction, rfl⟩
  next =>
    split
    next => exact Or.inr ⟨.StorageError, rfl⟩
    next => exact Or.inl rfl

/-- Claim C7: both facades propagate the first error of the fixed
pipeline (date, then amount; category and payment-method validation are
total functions and cannot fail), leave the store untouched on every
error, and on success perform exactly one insert and return the
storage-assigned identifier. -/
theorem claim_C7 :
    (∀ s e, normalize_date_to_iso s = .error e → e = .InvalidDate) ∧
    (∀ s e, parse_amount_to_cents s = .error e →
      e = .InvalidAmount ∨ e = .NonPositiveAmount) ∧
    (∀ date amount cat desc acc pm tags allow t db,
      (∀ e, normalize_date_to_iso date = .error e →
        add_expense date amount cat desc acc pm tags allow t db =
          (.error e, db) ∧
        add_income date amount cat desc acc pm tags allow t db =
          (.error e, db)) ∧
      (∀ di e, normalize_date_to_iso date = .ok di →
        parse_amount_to_cents amount = .error e →
        add_expense date amount cat desc acc pm tags allow t db =
          (.error e, db) ∧
        add_income date amount cat desc acc pm tags allow t db =
          (.error e, db)) ∧
      (∀ e, (add_expense date amount cat desc acc pm tags allow t db).1 =
          .error e →
        (add_expense date amount cat desc acc pm tags allow t db).2 = db) ∧
      (∀ e, (add_income date amount cat desc acc pm tags allow t db).1 =
          .error e →
        (add_income date amount cat desc acc pm tags allow t db).2 = db) ∧
      (∀ i, (add_expense date amount cat desc acc pm tags allow t db).1 =
          .ok i →
        i = db.nextId ∧
        ∃ r, (add_expense date amount cat desc acc pm tags allow t db).2 =
          { rows := db.rows ++ [r], nextId := db.nextId + 1 }) ∧
      (∀ i, (add_income date amount cat desc acc pm tags allow t db).1 =
          .ok i →
        i = db.nextId ∧
        ∃ r, (add_income date amount cat desc acc pm tags allow t db).2 =
          { rows := db.rows ++ [r], nextId := db.nextId + 1 })) := by
  refine ⟨fun s e h => normalize_error_inv h,
    fun s e h => parse_error_inv h, ?_⟩
  intro date amount cat desc acc pm tags allow t db
  refine ⟨?_, ?_, ?_, ?_, ?_, ?_⟩
  · intro e he
    constructor
    · unfold add_expense
      rw [he]
    · unfold add_income
      rw [he]
  · intro di e hdi he
    constructor
    · unfold add_expense
      rw [hdi, he]
    · unfold add_income
      rw [hdi, he]
  · intro e he
    unfold add_expense at he ⊢
    split at he
    next => rfl
    next di hdi =>
      split at he
      next => rfl
      next c hc =>
        rcases save_cases (mkTx .expense di c cat desc acc pm tags) allow t
            db with hs | ⟨e2, hs⟩
        · rw [hs] at he
          simp at he
        · rw [hs]
  · intro e he
    unfold add_income at he ⊢
    split at he
    next => rfl
    next di hdi =>
      split at he
      next => rfl
      next c hc =>
        rcases save_cases (mkTx .income di c cat desc acc pm tags) allow t
            db with hs | ⟨e2, hs⟩
        · rw [hs] at he
          simp at he
        · rw [hs]
  · intro i hi
    unfold add_expense at hi ⊢
    split at hi
    next => simp at hi
    next di hdi =>
      split at hi
      next => simp at hi
      next c hc =>
        rcases save_cases (mkTx .expense di c cat desc acc pm tags) allow t
            db with hs | ⟨e2, hs⟩
        · rw [hs] at hi ⊢
          simp only at hi
          exact ⟨by simpa using hi.symm,
            ⟨rowOfTx (mkTx .expense di c cat desc acc pm tags) db.nextId
              (utcNowString t), rfl⟩⟩
        · rw [hs] at hi
          simp at hi
  · intro i hi
    unfold add_income at hi ⊢
    split at hi
    next => simp at hi
    next di hdi =>
      split at hi
      next => simp at hi
      next c hc =>
        rcases save_cases (mkTx .income di c cat desc acc pm tags) allow t
            db with hs | ⟨e2, hs⟩
        · rw [hs] at hi ⊢
          simp only at hi
          exact ⟨by simpa using hi.symm,
            ⟨rowOfTx (mkTx .income di c cat desc acc pm tags) db.nextId
              (utcNowString t), rfl⟩⟩
        · rw [hs] at hi
          simp at hi

/-- Witness for C7: an invalid date propagates out of the facade with
the store untouched. -/
theorem claim_C7_witness :
    add_expense "bad".toList "12,34".toList "Outros".toList [] [] []
      none false [] sampleDB = (.error .InvalidDate, sampleDB) :=
  ((claim_C7.2.2 "bad".toList "12,34".toList "Outros".toList [] [] []
      none false [] sampleDB).1 .InvalidDate (by decide)).1

/-! ## Claims about the display round-trip -/

theorem digitsVal_append_singleton (ds : List Char) (c : Char) :
    digitsVal (ds ++ [c]) = digitsVal ds * 10 + digitVal c := by
  unfold digitsVal
  rw [List.foldl_append]
  rfl

theorem natDigitsAux_succ (f n : ℕ) :
    natDigitsAux (f + 1) n =
      if n < 10 then [Char.ofNat (48 + n)]
      else natDigitsAux f (n / 10) ++ [Char.ofNat (48 + n % 10)] := rfl

theorem natDigitsAux_small {fuel n : ℕ} (h1 : n < 10) (h2 : 0 < fuel) :
    natDigitsAux fuel n = [Char.ofNat (48 + n)] := by
  obtain ⟨f, rfl⟩ : ∃ f, fuel = f + 1 := ⟨fuel - 1, by omega⟩
  rw [natDigitsAux_succ, if_pos h1]

theorem isDigit_iff_toNat (c : Char) :
    c.isDigit = true ↔ 48 ≤ c.toNat ∧ c.toNat ≤ 57 := by
  unfold Char.isDigit
  simp only [Bool.and_eq_true, decide_eq_true_eq, ge_iff_le, Char.le_def]
  constructor
  · intro h
    exact ⟨h.1, h.2⟩
  · intro h
    exact ⟨h.1, h.2⟩

theorem natDigitsAux_spec :
    ∀ fuel n, n < fuel →
      natDigitsAux fuel n ≠ [] ∧
      (∀ c ∈ natDigitsAux fuel n, c.isDigit = true) ∧
      digitsVal (natDigitsAux fuel n) = n := by
  intro fuel
  induction fuel with
  | zero => omega
  | succ f ih =>
    intro n hn
    by_cases h10 : n < 10
    · have hv : (48 + n).isValidChar := Or.inl (by omega)
      have htn : (Char.ofNat (48 + n)).toNat = 48 + n := toNat_ofNat_valid _ hv
      refine ⟨by simp [natDigitsAux, h10], ?_, ?_⟩
      · intro c hc
        simp only [natDigitsAux, if_pos h10, List.mem_singleton] at hc
        subst hc
        rw [isDigit_iff_toNat]
        omega
      · simp only [natDigitsAux, if_pos h10]
        show digitsVal [Char.ofNat (48 + n)] = n
        unfold digitsVal digitVal
        simp [htn]
    · have hlt : n / 10 < f := by omega
      obtain ⟨hne, hdig, hval⟩ := ih (n / 10) hlt
      have hv : (48 + n % 10).isValidChar := Or.inl (by omega)
      have htn : (Char.ofNat (48 + n % 10)).toNat = 48 + n % 10 :=
        toNat_ofNat_valid _ hv
      refine ⟨by simp [natDigitsAux, h10], ?_, ?_⟩
      · intro c hc
        simp only [natDigitsAux, if_neg h10, List.mem_append,
          List.mem_singleton] at hc
        cases hc with
        | inl hc => exact hdig c hc
        | inr hc =>
          subst hc
          rw [isDigit_iff_toNat]
          omega
      · simp only [natDigitsAux, if_neg h10, digitsVal_append_singleton, hval]
        unfold digitVal
        rw [htn]
        omega

theorem natDigits_spec (n : ℕ) :
    natDigits n ≠ [] ∧ (∀ c ∈ natDigits n, c.isDigit = true) ∧
      digitsVal (natDigits n) = n :=
  natDigitsAux_spec (n + 1) n (by omega)

theorem pad2_spec (m : ℕ) (h : m < 100) :
    (pad2 m).length = 2 ∧ (∀ c ∈ pad2 m, c.isDigit = true) ∧
      digitsVal (pad2 m) = m := by
  unfold pad2
  by_cases h10 : m < 10
  · have hv : (48 + m).isValidChar := Or.inl (by omega)
    have htn : (Char.ofNat (48 + m)).toNat = 48 + m := toNat_ofNat_valid _ hv
    rw [if_pos h10]
    refine ⟨rfl, ?_, ?_⟩
    · intro c hc
      simp only [List.mem_cons, List.mem_singleton] at hc
      cases hc with
      | inl hc => subst hc; decide
      | inr hc =>
        cases hc with
        | inl hc =>
          subst hc
          rw [isDigit_iff_toNat]
          omega
        | inr hc => simp at hc
    · show digitsVal ['0', Char.ofNat (48 + m)] = m
      unfold digitsVal digitVal
      simp [htn]
  · rw [if_neg h10]
    have hv1 : (48 + m / 10).isValidChar := Or.inl (by omega)
    have hv2 : (48 + m % 10).isValidChar := Or.inl (by omega)
    have heq : natDigits m =
        [Char.ofNat (48 + m / 10), Char.ofNat (48 + m % 10)] := by
      unfold natDigits
      rw [natDigitsAux_succ, if_neg h10,
        natDigitsAux_small (by omega) (by omega)]
      rfl
    rw [heq]
    refine ⟨rfl, ?_, ?_⟩
    · intro c hc
      simp only [List.mem_cons, List.mem_singleton] at hc
      rcases hc with hc | hc | hc
      · subst hc
        rw [isDigit_iff_toNat, toNat_ofNat_valid _ hv1]
        omega
      · subst hc
        rw [isDigit_iff_toNat, toNat_ofNat_valid _ hv2]
        omega
      · simp at hc
    · show digitsVal [Char.ofNat (48 + m / 10), Char.ofNat (48 + m % 10)] = m
      unfold digitsVal digitVal
      simp only [List.foldl_cons, List.foldl_nil, toNat_ofNat_valid _ hv1,
        toNat_ofNat_valid _ hv2]
      omega

/-- A digit character is none of the special characters the parser
treats specially. -/
theorem isDigit_not_special {c : Char} (h : c.isDigit = true) :
    c ≠ '.' ∧ c ≠ ',' ∧ c ≠ 'R' ∧ c ≠ ' ' ∧ c ≠ 'e' ∧ c ≠ 'E' ∧
      c ≠ '-' ∧ c ≠ '+' ∧ isPySpace c = false := by
  rw [isDigit_iff_toNat] at h
  refine ⟨?_, ?_, ?_, ?_, ?_, ?_, ?_, ?_, ?_⟩
  all_goals first
    | (intro hc
       subst hc
       exact absurd h (by decide))
    | (rw [← Bool.not_eq_true, isPySpace_iff]
       omega)

theorem removeRS_cons_of_ne {a : Char} (l : List Char) (h : a ≠ 'R') :
    removeRS (a :: l) = a :: removeRS l := by
  conv_lhs => rw [removeRS.eq_def]
  split
  next heq =>
    rw [List.cons.injEq] at heq
    exact absurd heq.1 h
  next c rest heq =>
    rw [List.cons.injEq] at heq
    rw [heq.1, heq.2]
  next heq => cases heq

theorem removeRS_eq_self {l : List Char} (h : ∀ c ∈ l, c ≠ 'R') :
    removeRS l = l := by
  induction l with
  | nil => rfl
  | cons a t ih =>
    rw [removeRS_cons_of_ne t (h a (by simp))]
    rw [ih (fun c hc => h c (by simp [hc]))]

theorem splitSign_of_ne {a : Char} (l : List Char) (h1 : a ≠ '-')
    (h2 : a ≠ '+') : splitSign (a :: l) = (false, a :: l) := by
  conv_lhs => rw [splitSign.eq_def]
  split
  next heq =>
    rw [List.cons.injEq] at heq
    exact absurd heq.1 h1
  next heq =>
    rw [List.cons.injEq] at heq
    exact absurd heq.1 h2
  next => rfl

theorem splitExpMark_of_no_exp {l : List Char}
    (h : ∀ c ∈ l, c ≠ 'e' ∧ c ≠ 'E') : splitExpMark l = (l, none) := by
  induction l with
  | nil => rfl
  | cons a t ih =>
    have hstep : splitExpMark (a :: t) =
        if a = 'e' ∨ a = 'E' then ([], some t)
        else (a :: (splitExpMark t).1, (splitExpMark t).2) := rfl
    rw [hstep, if_neg (by
      intro hc
      cases hc with
      | inl hc => exact (h a (by simp)).1 hc
      | inr hc => exact (h a (by simp)).2 hc)]
    rw [ih (fun c hc => h c (by simp [hc]))]

theorem splitPoint_append_point {a : List Char} (b : List Char)
    (h : ∀ c ∈ a, c ≠ '.') : splitPoint (a ++ '.' :: b) = some (a, b) := by
  induction a with
  | nil =>
    show splitPoint ('.' :: b) = some ([], b)
    rw [splitPoint.eq_def]
    simp
  | cons x t ih =>
    have hstep : splitPoint (x :: (t ++ '.' :: b)) =
        if x = '.' then some ([], t ++ '.' :: b)
        else (splitPoint (t ++ '.' :: b)).map (fun p => (x :: p.1, p.2)) := rfl
    rw [List.cons_append, hstep, if_neg (h x (by simp))]
    rw [ih (fun c hc => h c (by simp [hc]))]
    rfl

theorem map_comma_eq_self {l : List Char} (h : ∀ c ∈ l, c ≠ ',') :
    l.map (fun c => if c = ',' then '.' else c) = l := by
  induction l with
  | nil => rfl
  | cons a t ih =>
    rw [List.map_cons, if_neg (h a (by simp)),
      ih (fun c hc => h c (by simp [hc]))]

theorem rchunks3_flatten : ∀ l : List Char, (rchunks3 l).flatten = l
  | [] => rfl
  | [_] => rfl
  | [_, _] => rfl
  | a :: b :: c :: rest => by
    show ([a, b, c] :: rchunks3 rest).flatten = a :: b :: c :: rest
    rw [List.flatten_cons, rchunks3_flatten rest]
    rfl

theorem mem_intersperse_dot :
    ∀ {x : List Char} {gs : List (List Char)},
      x ∈ List.intersperse ['.'] gs → x = ['.'] ∨ x ∈ gs
  | _, [], h => by simp at h
  | x, [g], h => by
    simp only [List.intersperse_singleton, List.mem_singleton] at h
    exact Or.inr (by simp [h])
  | x, g :: g2 :: t, h => by
    have hstep : List.intersperse ['.'] (g :: g2 :: t) =
        g :: ['.'] :: List.intersperse ['.'] (g2 :: t) := rfl
    rw [hstep, List.mem_cons, List.mem_cons] at h
    rcases h with h | h | h
    · exact Or.inr (by simp [h])
    · exact Or.inl h
    · rcases mem_intersperse_dot h with h2 | h2
      · exact Or.inl h2
      · exact Or.inr (by simp [h2])

theorem filter_dot_intersperse :
    ∀ gs : List (List Char),
      ((List.intersperse ['.'] gs).flatten).filter (fun c => c ≠ '.') =
        (gs.flatten).filter (fun c => c ≠ '.')
  | [] => rfl
  | [_] => rfl
  | g :: g2 :: t => by
    have hstep : List.intersperse ['.'] (g :: g2 :: t) =
        g :: ['.'] :: List.intersperse ['.'] (g2 :: t) := rfl
    rw [hstep, List.flatten_cons, List.flatten_cons,
      List.filter_append, List.filter_append,
      filter_dot_intersperse (g2 :: t)]
    simp

/-- The grouped digits of `groupThousands` recover the digit string once
every `.` is dropped. -/
theorem groupThousands_flatten (ds : List Char) :
    (((rchunks3 ds.reverse).map List.reverse).reverse).flatten = ds := by
  rw [← List.reverse_flatten, rchunks3_flatten, List.reverse_reverse]

theorem groupThousands_eq (ds : List Char) :
    groupThousands ds =
      (List.intersperse ['.']
        (((rchunks3 ds.reverse).map List.reverse).reverse)).flatten := rfl

theorem groupThousands_filter (ds : List Char) :
    (groupThousands ds).filter (fun c => c ≠ '.') =
      ds.filter (fun c => c ≠ '.') := by
  rw [groupThousands_eq, filter_dot_intersperse, groupThousands_flatten]

theorem mem_groupThousands {c : Char} {ds : List Char}
    (h : c ∈ groupThousands ds) : c = '.' ∨ c ∈ ds := by
  rw [groupThousands_eq, List.mem_flatten] at h
  obtain ⟨g, hg, hcg⟩ := h
  rcases mem_intersperse_dot hg with h3 | h3
  · subst h3
    simp only [List.mem_singleton] at hcg
    exact Or.inl hcg
  · right
    rw [← groupThousands_flatten ds, List.mem_flatten]
    exact ⟨g, h3, hcg⟩

theorem pyStrip_eq_self {l : List Char}
    (h1 : ∀ c, l.head? = some c → isPySpace c = false)
    (h2 : ∀ c, l.getLast? = some c → isPySpace c = false) :
    pyStrip l = l := by
  unfold pyStrip
  rw [dropWhile_eq_self_of_head? _ _ h1]
  rw [dropWhile_eq_self_of_head? _ _ (by
    intro c hc
    rw [List.head?_reverse] at hc
    exact h2 c hc)]
  exact List.reverse_reverse l

/-- Round-trip of the *exact-integer* model of the formatter: parsing
the canonical display string of any positive amount recovers it.  This
is a statement about `cents_to_brl`, whose integer arithmetic follows
the program only while the double division of line 211 is faithful
(see `float_format_exact` and the counterexample `claim_C5_cex`). -/
theorem cents_roundtrip_exact :
    ∀ c : ℕ, 0 < c → parse_amount_to_cents (cents_to_brl c) = .ok (c : ℤ) := by
  intro c hc
  obtain ⟨hDne, hDdig, hDval⟩ := natDigits_spec (c / 100)
  obtain ⟨hFlen, hFdig, hFval⟩ := pad2_spec (c % 100) (by omega)
  set D := natDigits (c / 100) with hDdef
  set F := pad2 (c % 100) with hFdef
  set G := groupThousands D with hGdef
  have hDfil : D.filter (fun x => x ≠ '.') = D :=
    List.filter_eq_self.mpr (fun a ha => by
      simp only [decide_eq_true_eq]
      exact (isDigit_not_special (hDdig a ha)).1)
  have hGfil : G.filter (fun x => x ≠ '.') = D := by
    rw [hGdef, groupThousands_filter, hDfil]
  have hGne : G ≠ [] := by
    intro h0
    rw [h0] at hGfil
    exact hDne hGfil.symm
  have hGmem : ∀ x ∈ G, x = '.' ∨ x.isDigit = true :=
    fun x hx => (mem_groupThousands hx).imp id (fun h => hDdig x h)
  have hTmem : ∀ x ∈ (G ++ [',']) ++ F, x = '.' ∨ x = ',' ∨ x.isDigit = true := by
    intro x hx
    simp only [List.mem_append, List.mem_singleton] at hx
    rcases hx with (hx | hx) | hx
    · rcases hGmem x hx with h | h
      · exact Or.inl h
      · exact Or.inr (Or.inr h)
    · exact Or.inr (Or.inl hx)
    · exact Or.inr (Or.inr (hFdig x hx))
  have hshape : cents_to_brl c =
      'R' :: '$' :: ' ' :: ((G ++ [',']) ++ F) := by
    unfold cents_to_brl
    dsimp only
    rw [← hDdef, ← hGdef, ← hFdef, if_neg hGne]
    rfl
  have hshape2 : cents_to_brl c = ('R' :: '$' :: ' ' :: (G ++ [','])) ++ F := by
    rw [hshape]
    rfl
  have h1 : pyStrip (cents_to_brl c) = cents_to_brl c := by
    apply pyStrip_eq_self
    · intro ch hch
      rw [hshape] at hch
      simp only [List.head?_cons, Option.some.injEq] at hch
      subst hch
      decide
    · intro ch hch
      rw [hshape2, List.getLast?_append] at hch
      obtain ⟨f2, hf2⟩ : ∃ a, F.getLast? = some a := by
        cases hF0 : F.getLast? with
        | some a => exact ⟨a, rfl⟩
        | none =>
          rw [List.getLast?_eq_none_iff] at hF0
          rw [hF0] at hFlen
          simp at hFlen
      rw [hf2] at hch
      have hch2 : f2 = ch := by
        simpa [Option.or] using hch
      subst hch2
      have hd := hFdig f2 (List.mem_of_mem_getLast? hf2)
      exact (isDigit_not_special hd).2.2.2.2.2.2.2.2
  have h2 : stripAmount (cents_to_brl c) = (G ++ [',']) ++ F := by
    unfold stripAmount
    rw [h1, hshape]
    have hr : removeRS ('R' :: '$' :: ' ' :: ((G ++ [',']) ++ F)) =
        removeRS (' ' :: ((G ++ [',']) ++ F)) := rfl
    rw [hr, removeRS_eq_self (by
      intro x hx
      rcases List.mem_cons.mp hx with hx | hx
      · subst hx; decide
      · rcases hTmem x hx with h | h | h
        · subst h; decide
        · subst h; decide
        · exact (isDigit_not_special h).2.2.1)]
    show List.filter _ (' ' :: ((G ++ [',']) ++ F)) = (G ++ [',']) ++ F
    rw [List.filter_cons]
    simp only [decide_eq_true_eq]
    rw [if_neg (by simp)]
    apply List.filter_eq_self.mpr
    intro x hx
    simp only [decide_eq_true_eq]
    rcases hTmem x hx with h | h | h
    · subst h; decide
    · subst h; decide
    · exact (isDigit_not_special h).2.2.2.1
  have hFfil : F.filter (fun x => x ≠ '.') = F :=
    List.filter_eq_self.mpr (fun a ha => by
      simp only [decide_eq_true_eq]
      exact (isDigit_not_special (hFdig a ha)).1)
  have hDcomma : ∀ x ∈ D, x ≠ ',' :=
    fun x hx => (isDigit_not_special (hDdig x hx)).2.1
  have hFcomma : ∀ x ∈ F, x ≠ ',' :=
    fun x hx => (isDigit_not_special (hFdig x hx)).2.1
  have hcomma : ((G ++ [',']) ++ F).contains ',' = true :=
    List.elem_iff.mpr (by simp)
  have hdis : disambiguate ((G ++ [',']) ++ F) = D ++ '.' :: F := by
    unfold disambiguate
    by_cases hdot : ((G ++ [',']) ++ F).contains '.' = true
    · rw [if_pos ⟨hdot, hcomma⟩]
      rw [List.filter_append, List.filter_append, hGfil, hFfil]
      have hfc : List.filter (fun x => decide (x ≠ '.')) [','] = [','] := by decide
      rw [hfc]
      rw [List.map_append, List.map_append, map_comma_eq_self hDcomma,
        map_comma_eq_self hFcomma]
      have hmc : List.map (fun x => if x = ',' then '.' else x) [','] =
          ['.'] := by decide
      rw [hmc, List.append_assoc]
      rfl
    · rw [if_neg (fun hand => hdot hand.1)]
      rw [if_pos hcomma]
      have hGD : G = D := by
        rw [← hGfil]
        symm
        apply List.filter_eq_self.mpr
        intro x hx
        simp only [decide_eq_true_eq]
        intro hx2
        subst hx2
        exact hdot (List.elem_iff.mpr (by simp [hx]))
      have hGcomma : ∀ x ∈ G, x ≠ ',' := by
        rw [hGD]
        exact hDcomma
      rw [List.map_append, List.map_append, map_comma_eq_self hGcomma,
        map_comma_eq_self hFcomma]
      have hmc : List.map (fun x => if x = ',' then '.' else x) [','] =
          ['.'] := by decide
      rw [hmc, hGD, List.append_assoc]
      rfl
  have hDq : ∀ x ∈ D ++ '.' :: F, x = '.' ∨ x.isDigit = true := by
    intro x hx
    simp only [List.mem_append, List.mem_cons] at hx
    rcases hx with hx | hx | hx
    · exact Or.inr (hDdig x hx)
    · exact Or.inl hx
    · exact Or.inr (hFdig x hx)
  obtain ⟨d0, D2, hD2⟩ : ∃ d0 D2, D = d0 :: D2 := by
    cases hD0 : D with
    | nil => exact absurd hD0 hDne
    | cons a t => exact ⟨a, t, rfl⟩
  have hd0dig : d0.isDigit = true := hDdig d0 (by rw [hD2]; simp)
  have hsign : splitSign (D ++ '.' :: F) = (false, D ++ '.' :: F) := by
    rw [hD2, List.cons_append]
    exact splitSign_of_ne _ (isDigit_not_special hd0dig).2.2.2.2.2.2.1
      (isDigit_not_special hd0dig).2.2.2.2.2.2.2.1
  have hexp : splitExpMark (D ++ '.' :: F) = (D ++ '.' :: F, none) := by
    apply splitExpMark_of_no_exp
    intro x hx
    rcases hDq x hx with h | h
    · subst h
      exact ⟨by decide, by decide⟩
    · exact ⟨(isDigit_not_special h).2.2.2.2.1, (isDigit_not_special h).2.2.2.2.2.1⟩
  have hmant : parseMantissa (D ++ '.' :: F) = some (c, 2) := by
    unfold parseMantissa
    rw [splitPoint_append_point F
      (fun x hx => (isDigit_not_special (hDdig x hx)).1)]
    dsimp only
    rw [if_neg (fun hand => hDne hand.1)]
    rw [if_pos ⟨List.all_eq_true.mpr (fun x hx => hDdig x hx),
      List.all_eq_true.mpr (fun x hx => hFdig x hx)⟩]
    rw [hDval, hFval, hFlen]
    have harith : c / 100 * 10 ^ 2 + c % 100 = c := by
      have h100 : (10:ℕ) ^ 2 = 100 := by norm_num
      rw [h100]
      omega
    rw [harith]
  have hpf : pyFloat (D ++ '.' :: F) = some ((c : ℤ), 2) := by
    unfold pyFloat
    rw [hsign]
    dsimp only
    rw [hexp]
    dsimp only
    rw [hmant]
    simp
  show parse_amount_to_cents (cents_to_brl c) = .ok (c : ℤ)
  unfold parse_amount_to_cents
  rw [h2, hdis, hpf]
  have hcz : (0 : ℤ) < (c : ℤ) := by exact_mod_cast hc
  dsimp only
  rw [if_neg (by omega)]
  unfold centsRound
  rw [if_pos (by omega)]
  norm_num

theorem log2Fuel_le : ∀ fuel n k : ℕ, n < 2 ^ (k + 1) → log2Fuel fuel n ≤ k := by
  intro fuel
  induction fuel with
  | zero => intro n k _; exact Nat.zero_le k
  | succ f ih =>
    intro n k h
    have hstep : log2Fuel (f + 1) n =
        if n < 2 then 0 else log2Fuel f (n / 2) + 1 := rfl
    rw [hstep]
    by_cases h2 : n < 2
    · rw [if_pos h2]
      exact Nat.zero_le k
    · rw [if_neg h2]
      have hk : 1 ≤ k := by
        by_contra hk0
        have hk1 : k = 0 := by omega
        subst hk1
        norm_num at h
        omega
      have hp : (2:ℕ) ^ (k + 1) = 2 ^ k * 2 := by rw [pow_succ]
      rw [hp] at h
      have hdiv : n / 2 < 2 ^ ((k - 1) + 1) := by
        have hp2 : (2:ℕ) ^ ((k - 1) + 1) = 2 ^ k := by
          congr 1
          omega
        rw [hp2]
        omega
      have := ih (n / 2) (k - 1) hdiv
      omega

/-- `rheNat a b` is within half of `a / b`:
`|2 * b * rheNat a b - 2 * a| ≤ b`. -/
theorem rheNat_bounds (a b : ℕ) (hb : 0 < b) :
    2 * a ≤ 2 * b * rheNat a b + b ∧ 2 * b * rheNat a b ≤ 2 * a + b := by
  unfold rheNat
  have hdm := Nat.div_add_mod a b
  have hlt := Nat.mod_lt a hb
  have hr1 : 2 * b * (a / b) = 2 * (b * (a / b)) := by ring
  have hr2 : 2 * b * (a / b + 1) = 2 * (b * (a / b)) + 2 * b := by ring
  dsimp only
  split
  next h => omega
  next h =>
    split
    next h2 => omega
    next h2 =>
      split
      next => omega
      next => omega

/-- In the range where the double division is exact enough — any amount
below `2 ^ 45` cents — the program's formatted hundredths are the exact
hundredths: the nearest binary64 value of `c / 100` sits within
`2 ^ (-14)` of the true quotient, so the two-decimal rounding cannot
move it off `c`. -/
theorem float_format_exact (c : ℕ) (h1 : 0 < c) (h2 : c < 2 ^ 45) :
    formatHundredths (doubleOfCentsOver100 c) = c := by
  have hE : floorLog2 (c * 2 ^ 64 / 100) ≤ 102 := by
    unfold floorLog2
    apply log2Fuel_le
    have hlit45 : (2:ℕ) ^ 45 = 35184372088832 := by norm_num
    have hlit64 : (2:ℕ) ^ 64 = 18446744073709551616 := by norm_num
    have hlit103 : (2:ℕ) ^ 103 = 10141204801825835211973625643008 := by
      norm_num
    rw [Nat.div_lt_iff_lt_mul (by norm_num : (0:ℕ) < 100)]
    rw [hlit45] at h2
    rw [hlit64, hlit103]
    have := Nat.mul_le_mul_right 18446744073709551616 (by omega : c ≤ 35184372088831)
    omega
  unfold formatHundredths doubleOfCentsOver100
  dsimp only
  rw [if_pos (by omega : (0:ℤ) ≤ 52 - ((floorLog2 (c * 2 ^ 64 / 100) : ℤ) - 64))]
  rw [if_neg (by omega : ¬ (0:ℤ) ≤ (floorLog2 (c * 2 ^ 64 / 100) : ℤ) - 64 - 52)]
  have ht1 : ((52:ℤ) - ((floorLog2 (c * 2 ^ 64 / 100) : ℤ) - 64)).toNat =
      116 - floorLog2 (c * 2 ^ 64 / 100) := by omega
  have ht2 : (-((floorLog2 (c * 2 ^ 64 / 100) : ℤ) - 64 - 52)).toNat =
      116 - floorLog2 (c * 2 ^ 64 / 100) := by omega
  rw [ht1, ht2]
  set s := 116 - floorLog2 (c * 2 ^ 64 / 100) with hsdef
  have hs14 : 14 ≤ s := by omega
  have hP : 100 < 2 ^ s :=
    lt_of_lt_of_le (by norm_num)
      (le_trans (by norm_num : (100:ℕ) + 16284 ≤ 2 ^ 14)
        (Nat.pow_le_pow_right (by norm_num) hs14))
  obtain ⟨hA1, hA2⟩ := rheNat_bounds (c * 2 ^ s) 100 (by norm_num)
  obtain ⟨hB1, hB2⟩ := rheNat_bounds (rheNat (c * 2 ^ s) 100 * 100) (2 ^ s)
    (by positivity)
  have step1 : 2 * 2 ^ s * rheNat (rheNat (c * 2 ^ s) 100 * 100) (2 ^ s) <
      2 * 2 ^ s * (c + 1) := by
    have e1 : 2 * 2 ^ s * (c + 1) = 2 * (c * 2 ^ s) + 2 * 2 ^ s := by ring
    rw [e1]
    linarith
  have step2 : 2 * 2 ^ s * c <
      2 * 2 ^ s * (rheNat (rheNat (c * 2 ^ s) 100 * 100) (2 ^ s) + 1) := by
    have e2 : 2 * 2 ^ s * c = 2 * (c * 2 ^ s) := by ring
    rw [e2]
    have e3 : 2 * 2 ^ s * (rheNat (rheNat (c * 2 ^ s) 100 * 100) (2 ^ s) + 1) =
        2 * 2 ^ s * rheNat (rheNat (c * 2 ^ s) 100 * 100) (2 ^ s) +
          2 * 2 ^ s := by ring
    rw [e3]
    linarith
  have hlt1 := Nat.lt_of_mul_lt_mul_left step1
  have hlt2 := Nat.lt_of_mul_lt_mul_left step2
  omega

set_option maxRecDepth 8000 in
/-- Counterexample to claim C5 as stated: at `c = 2 ^ 53 + 1` the
program's round trip fails.  `9007199254740993 / 100.0` is the double
`5764607523034236 * 2 ^ (-6) = 90071992547409.9375`; `.2f` rounds the
trailing `.9375` up, displaying `R$ 90.071.992.547.409,94`, and parsing
that string yields `9007199254740994 = c + 1`.  The unbounded claim is
provable only of the exact-integer model, not of the program. -/
theorem claim_C5_cex :
    parse_amount_to_cents (cents_to_brl_float 9007199254740993) =
      .ok 9007199254740994 ∧
    (9007199254740994 : ℤ) ≠ (9007199254740993 : ℤ) := by
  constructor
  · decide
  · decide

/-- Claim C5 as amended: for every positive minor-units integer below
`2 ^ 45`, the display string the program produces — double division
included — is the canonical one, and parsing it recovers the amount
exactly.  Beyond that range the binary64 rounding of `cents / 100.0`
can shift the displayed hundredths (see `claim_C5_cex`). -/
theorem claim_C5_amended :
    ∀ c : ℕ, 0 < c → c < 2 ^ 45 →
      cents_to_brl_float c = cents_to_brl c ∧
      parse_amount_to_cents (cents_to_brl_float c) = .ok (c : ℤ) := by
  intro c h1 h2
  have heq : cents_to_brl_float c = cents_to_brl c := by
    unfold cents_to_brl_float
    rw [float_format_exact c h1 h2]
  refine ⟨heq, ?_⟩
  rw [heq]
  exact cents_roundtrip_exact c h1

/-- Witness for the amended C5 at a concrete amount. -/
theorem claim_C5_witness :
    cents_to_brl_float 123456 = cents_to_brl 123456 ∧
    parse_amount_to_cents (cents_to_brl_float 123456) = .ok (123456 : ℤ) :=
  claim_C5_amended 123456 (by decide) (by decide)

/-! ## Claims about the listing -/

theorem listLtB_irrefl : ∀ l : List Char, listLtB l l = false
  | [] => rfl
  | a :: t => by
    show listLtB (a :: t) (a :: t) = false
    unfold listLtB
    rw [if_neg (lt_irrefl a), if_pos rfl]
    exact listLtB_irrefl t

theorem listLtB_asymm :
    ∀ l₁ l₂ : List Char, listLtB l₁ l₂ = true → listLtB l₂ l₁ = true → False
  | [], [], h₁, _ => by simp [listLtB] at h₁
  | [], _ :: _, _, h₂ => by simp [listLtB] at h₂
  | _ :: _, [], h₁, _ => by simp [listLtB] at h₁
  | a :: t₁, b :: t₂, h₁, h₂ => by
    unfold listLtB at h₁ h₂
    by_cases hab : a < b
    · rw [if_pos hab] at h₁
      rw [if_neg (lt_asymm hab), if_neg (by
        intro hbe
        rw [hbe] at hab
        exact lt_irrefl a hab)] at h₂
      exact Bool.noConfusion h₂
    · rw [if_neg hab] at h₁
      by_cases hae : a = b
      · subst hae
        rw [if_pos rfl] at h₁
        rw [if_neg hab, if_pos rfl] at h₂
        exact listLtB_asymm t₁ t₂ h₁ h₂
      · rw [if_neg hae] at h₁
        exact Bool.noConfusion h₁

theorem listLtB_nil_right : ∀ l : List Char, listLtB l [] = false := by
  intro l
  cases l with
  | nil => rfl
  | cons a t => rfl

theorem listLtB_trans :
    ∀ l₁ l₂ l₃ : List Char, listLtB l₁ l₂ = true → listLtB l₂ l₃ = true →
      listLtB l₁ l₃ = true
  | l₁, [], _, h₁, _ => by
    rw [listLtB_nil_right] at h₁
    exact Bool.noConfusion h₁
  | [], b :: t₂, c :: t₃, _, _ => rfl
  | a :: t₁, b :: t₂, [], _, h₂ => by simp [listLtB] at h₂
  | a :: t₁, b :: t₂, c :: t₃, h₁, h₂ => by
    unfold listLtB at h₁ h₂ ⊢
    by_cases hab : a < b
    · by_cases hbc : b < c
      · rw [if_pos (lt_trans hab hbc)]
      · by_cases hbe : b = c
        · subst hbe
          rw [if_pos hab]
        · rw [if_neg hbc, if_neg hbe] at h₂
          exact Bool.noConfusion h₂
    · by_cases hae : a = b
      · subst hae
        rw [if_neg hab, if_pos rfl] at h₁
        by_cases hac : a < c
        · rw [if_pos hac]
        · by_cases hce : a = c
          · subst hce
            rw [if_neg hac, if_pos rfl] at h₂ ⊢
            exact listLtB_trans t₁ t₂ t₃ h₁ h₂
          · rw [if_neg hac, if_neg hce] at h₂
            exact Bool.noConfusion h₂
      · rw [if_neg hab, if_neg hae] at h₁
        exact Bool.noConfusion h₁

theorem listLtB_total :
    ∀ l₁ l₂ : List Char,
      listLtB l₁ l₂ = true ∨ l₁ = l₂ ∨ listLtB l₂ l₁ = true
  | [], [] => Or.inr (Or.inl rfl)
  | [], _ :: _ => Or.inl rfl
  | _ :: _, [] => Or.inr (Or.inr rfl)
  | a :: t₁, b :: t₂ => by
    unfold listLtB
    rcases lt_trichotomy a b with hab | hab | hab
    · rw [if_pos hab]
      exact Or.inl rfl
    · subst hab
      rw [if_neg (lt_irrefl a), if_pos rfl, if_neg (lt_irrefl a), if_pos rfl]
      rcases listLtB_total t₁ t₂ with h | h | h
      · exact Or.inl h
      · exact Or.inr (Or.inl (by rw [h]))
      · exact Or.inr (Or.inr h)
    · rw [if_neg (lt_asymm hab), if_neg (by
        intro he
        rw [he] at hab
        exact lt_irrefl b hab), if_pos hab]
      exact Or.inr (Or.inr rfl)

theorem rowRel_total : ∀ r s : Row, rowRel r s ∨ rowRel s r := by
  intro r s
  unfold rowRel rowLeB
  rcases listLtB_total s.date r.date with h | h | h
  · exact Or.inl (by simp [h])
  · rcases Nat.le_total s.id r.id with h2 | h2
    · exact Or.inl (by simp [h, h2])
    · exact Or.inr (by simp [h, h2])
  · exact Or.inr (by simp [h])

theorem rowRel_trans :
    ∀ r s t : Row, rowRel r s → rowRel s t → rowRel r t := by
  intro r s t h₁ h₂
  unfold rowRel rowLeB at h₁ h₂ ⊢
  simp only [Bool.or_eq_true, Bool.and_eq_true, decide_eq_true_eq] at h₁ h₂ ⊢
  rcases h₁ with h₁ | ⟨h₁e, h₁i⟩
  · rcases h₂ with h₂ | ⟨h₂e, h₂i⟩
    · exact Or.inl (listLtB_trans _ _ _ h₂ h₁)
    · exact Or.inl (h₂e ▸ h₁)
  · rcases h₂ with h₂ | ⟨h₂e, h₂i⟩
    · exact Or.inl (h₁e ▸ h₂)
    · exact Or.inr ⟨h₂e.trans h₁e, h₂i.trans h₁i⟩

instance : IsTotal Row rowRel := ⟨rowRel_total⟩

instance : IsTrans Row rowRel := ⟨rowRel_trans⟩

/-- Mutual `rowRel` forces equal sort keys. -/
theorem rowRel_antisymm_keys {r s : Row} (h₁ : rowRel r s)
    (h₂ : rowRel s r) : r.date = s.date ∧ r.id = s.id := by
  unfold rowRel rowLeB at h₁ h₂
  simp only [Bool.or_eq_true, Bool.and_eq_true, decide_eq_true_eq] at h₁ h₂
  rcases h₁ with h₁ | ⟨h₁e, h₁i⟩
  · rcases h₂ with h₂ | ⟨h₂e, h₂i⟩
    · exact (listLtB_asymm _ _ h₁ h₂).elim
    · rw [h₂e] at h₁
      rw [listLtB_irrefl] at h₁
      exact Bool.noConfusion h₁
  · rcases h₂ with h₂ | ⟨h₂e, h₂i⟩
    · rw [h₁e] at h₂
      rw [listLtB_irrefl] at h₂
      exact Bool.noConfusion h₂
    · exact ⟨h₂e, by omega⟩

/-- Two sorted lists that are permutations of one another and whose
elements admit no nontrivial mutual relation are equal. -/
theorem sorted_perm_unique {α : Type} {r : α → α → Prop} :
    ∀ {l₁ l₂ : List α}, l₁.Perm l₂ → l₁.Pairwise r → l₂.Pairwise r →
      (∀ a ∈ l₁, ∀ b ∈ l₁, r a b → r b a → a = b) → l₁ = l₂ := by
  intro l₁
  induction l₁ with
  | nil =>
    intro l₂ hp _ _ _
    exact (hp.symm.eq_nil).symm
  | cons a t ih =>
    intro l₂ hp hs₁ hs₂ hanti
    cases l₂ with
    | nil => exact absurd hp.eq_nil (by simp)
    | cons b t₂ =>
      by_cases hab : a = b
      · subst hab
        have htails := hp.cons_inv
        have ht : t = t₂ := ih htails (List.pairwise_cons.mp hs₁).2
          (List.pairwise_cons.mp hs₂).2
          (fun x hx y hy => hanti x (List.mem_cons_of_mem a hx) y
            (List.mem_cons_of_mem a hy))
        rw [ht]
      · have ha2 : a ∈ b :: t₂ := hp.subset (List.mem_cons_self a t)
        have hb1 : b ∈ a :: t := hp.symm.subset (List.mem_cons_self b t₂)
        have ha_t2 : a ∈ t₂ := by
          rcases List.mem_cons.mp ha2 with h | h
          · exact absurd h hab
          · exact h
        have hb_t : b ∈ t := by
          rcases List.mem_cons.mp hb1 with h | h
          · exact absurd h.symm hab
          · exact h
        have hrab : r a b := (List.pairwise_cons.mp hs₁).1 b hb_t
        have hrba : r b a := (List.pairwise_cons.mp hs₂).1 a ha_t2
        exact absurd (hanti a (List.mem_cons_self a t) b
          (List.mem_cons_of_mem a hb_t) hrab hrba) hab

/-- Claim C9: `list_last n` returns at most `n` rows, ordered by date
descending then identifier descending, and — because row identifiers
are unique — its output is a function of the *set* of stored rows, so
repeated calls against an unchanged store (whatever order the storage
engine enumerates rows in) return the same sequence. -/
theorem claim_C9 :
    ∀ n db,
      (list_last n db).length ≤ n ∧
      (list_last n db).Pairwise (fun a b : ListedTx =>
        listLtB b.date a.date = true ∨ (b.date = a.date ∧ b.id ≤ a.id)) ∧
      (∀ db2 : DB, db.rows.Perm db2.rows → (db.rows.map Row.id).Nodup →
        list_last n db = list_last n db2) := by
  intro n db
  refine ⟨?_, ?_, ?_⟩
  · unfold list_last
    rw [List.length_map, List.length_take]
    omega
  · unfold list_last
    rw [List.pairwise_map]
    apply List.Pairwise.sublist (List.take_sublist n _)
    apply List.Pairwise.imp ?_ (List.sorted_insertionSort rowRel db.rows)
    intro r s h
    unfold rowRel rowLeB at h
    simp only [Bool.or_eq_true, Bool.and_eq_true, decide_eq_true_eq] at h
    exact h.imp id id
  · intro db2 hperm hnodup
    unfold list_last
    have hs : db.rows.insertionSort rowRel = db2.rows.insertionSort rowRel := by
      apply sorted_perm_unique
        (((List.perm_insertionSort rowRel db.rows).trans hperm).trans
          (List.perm_insertionSort rowRel db2.rows).symm)
        (List.sorted_insertionSort rowRel db.rows)
        (List.sorted_insertionSort rowRel db2.rows)
      intro a ha b hb hab hba
      obtain ⟨hdate, hid⟩ := rowRel_antisymm_keys hab hba
      have ha2 : a ∈ db.rows := (List.perm_insertionSort rowRel db.rows).subset ha
      have hb2 : b ∈ db.rows := (List.perm_insertionSort rowRel db.rows).subset hb
      exact List.inj_on_of_nodup_map hnodup ha2 hb2 hid
    rw [hs]

/-- Witness for C9 at the fixture store. -/
theorem claim_C9_witness :
    (list_last 5 sampleDB).length ≤ 5 ∧
    list_last 5 sampleDB = list_last 5 { rows := sampleDB.rows, nextId := 7 } :=
  ⟨(claim_C9 5 sampleDB).1,
    (claim_C9 5 sampleDB).2.2 { rows := sampleDB.rows, nextId := 7 }
      (List.Perm.refl _) (by decide)⟩

/-! ## Audit of the integer-exact money arithmetic

`parse_amount_to_cents_rat` transliterates lines 95-102 of the source
over exact rationals (`valor <= 0`, `round(valor * 100)`); the theorems
below prove the integer-exact parser used throughout identical to it. -/

theorem decValue_nonpos_iff (n K : ℤ) : decValue (n, K) ≤ 0 ↔ n ≤ 0 := by
  unfold decValue
  have hpow : (0 : ℚ) < (10 : ℚ) ^ K := by positivity
  rw [div_nonpos_iff]
  constructor
  · intro h
    rcases h with ⟨h1, h2⟩ | ⟨h1, h2⟩
    · exact absurd h2 (not_le.mpr hpow)
    · exact_mod_cast h1
  · intro h
    exact Or.inr ⟨by exact_mod_cast h, hpow.le⟩

theorem centsRound_eq_round (n K : ℤ) :
    centsRound n K = round (decValue (n, K) * 100) := by
  unfold centsRound decValue
  by_cases hK : K ≤ 2
  · rw [if_pos hK]
    have ht : (((2 - K).toNat : ℤ)) = 2 - K := Int.toNat_of_nonneg (by omega)
    have h102 : (10 : ℚ) ^ (2 : ℤ) = 100 := by norm_num
    have key : ((n : ℚ) / (10 : ℚ) ^ K) * 100 =
        ((n * 10 ^ (2 - K).toNat : ℤ) : ℚ) := by
      push_cast
      rw [← zpow_natCast (10 : ℚ) (2 - K).toNat, ht,
        zpow_sub₀ (by norm_num : (10 : ℚ) ≠ 0), h102]
      ring
    rw [key, round_intCast]
  · rw [if_neg hK]
    obtain ⟨m, rfl⟩ : ∃ m : ℕ, K = (m : ℤ) + 2 := ⟨(K - 2).toNat, by omega⟩
    have hmt : ((m : ℤ) + 2 - 2).toNat = m := by omega
    rw [hmt]
    have h1 : ((n : ℚ) / (10 : ℚ) ^ ((m : ℤ) + 2)) * 100 =
        (n : ℚ) / ((10 : ℚ) ^ m) := by
      rw [zpow_add₀ (by norm_num : (10 : ℚ) ≠ 0), zpow_natCast]
      field_simp
      ring
    rw [h1, round_eq]
    have h2 : (n : ℚ) / (10 : ℚ) ^ m + 1 / 2 =
        ((2 * n + 10 ^ m : ℤ) : ℚ) / ((2 * 10 ^ m : ℕ) : ℚ) := by
      push_cast
      field_simp
      ring
    rw [h2, Rat.floor_intCast_div_natCast]
    push_cast
    rfl

/-- Lines 95-102 of the source written over exact rationals. -/
def parse_amount_to_cents_rat (value_str : List Char) : Except Err ℤ :=
  match pyFloat (disambiguate (stripAmount value_str)) with
  | none => .error .InvalidAmount
  | some p =>
    if decValue p ≤ 0 then .error .NonPositiveAmount
    else .ok (round (decValue p * 100))

theorem parse_amount_agrees (s : List Char) :
    parse_amount_to_cents s = parse_amount_to_cents_rat s := by
  unfold parse_amount_to_cents parse_amount_to_cents_rat
  cases hpf : pyFloat (disambiguate (stripAmount s)) with
  | none => rfl
  | some p =>
    obtain ⟨n, K⟩ := p
    dsimp only
    by_cases hn : n ≤ 0
    · rw [if_pos hn, if_pos ((decValue_nonpos_iff n K).mpr hn)]
    · rw [if_neg hn, if_neg (fun h => hn ((decValue_nonpos_iff n K).mp h)),
        centsRound_eq_round]

end Ini
